import Mathlib

/-!
# Verification of the `@allemandi/gacha-engine` probability engine

A shallow embedding in Lean 4 of the TypeScript sources of the
`gacha-engine` repository, together with proofs and refutations of the
specification claims about it.

Modelling conventions:

* Finite JavaScript `number` values are modelled as exact rationals (`ℚ`).
  The source performs its probability arithmetic on scaled integers
  precisely to stay in the range where IEEE doubles behave like exact
  integers, so the rational idealisation matches the intent of the code.
  Where the code can produce a *non-finite* double — the drop-rate division
  `Math.round((numeratorScaled * SCALE) / totalWeightScaled)` divides by a
  scaled pool weight that can round to `0`, and `0/0 = NaN` in JS — the
  result types `ScaledRate` and `JsNum` carry explicit `NaN` / `±Infinity`
  constructors, and every consumer of such a value follows the JS rules
  (every comparison with `NaN` is false, `Math.pow(x, 0) = 1` even for
  non-finite `x`, `Math.min`/`Math.max` propagate `NaN`).
* `Math.round` rounds half up (`Math.round(0.5) = 1`, `Math.round(-0.5) = -0`);
  Mathlib's `round` (definitionally `⌊x + 1/2⌋`) has exactly this behaviour
  and is used directly.
* Thrown exceptions are modelled with `Except` over the error kinds `Err`.
* The mutable drop-rate cache (`dropRateCacheScaled`) is modelled by explicit
  state passing: `getItemDropRate` takes and returns the cache.  The cache is
  the only mutable state of a constructed engine.
* `Math.random()` is modelled as an injected stream `ℕ → ℚ` of draws in
  `[0, 1)`: the i-th invocation of the random source during a `roll` reads
  index i of the stream.
* JS `Map` / plain-object tables are modelled as insertion-ordered
  association lists (`List (String × _)`), matching the iteration order of
  `Map.entries()` / `Object.entries()`.

Two versions of the engine exist in the repository: the published two-mode
engine (`'weighted'` / `'flatRate'`), modelled in namespace `Gacha`, and the
weighted-only engine of `src/gacha-engine.ts`, modelled in namespace
`Gacha.V1`, which additionally exposes `getRarityProbability` and clamps its
cumulative-probability formula.
-/

namespace Gacha

/-- `GachaEngine.SCALE = 1_000_000`, the fixed-point scale factor. -/
def SCALE : ℤ := 1000000

/-- `Number.MAX_SAFE_INTEGER = 2^53 - 1`. -/
def MAX_SAFE_INTEGER : ℤ := 9007199254740991

/-- `GachaEngine.MAX_SAFE_SCALE = Math.floor(Number.MAX_SAFE_INTEGER / SCALE)`. -/
def MAX_SAFE_SCALE : ℤ := ⌊(MAX_SAFE_INTEGER : ℚ) / (SCALE : ℚ)⌋

/-- The error kinds thrown by the engine (each `throw new Error(...)` site
gets one constructor; messages are dropped). -/
inductive Err where
  | rarityRateOutOfRange
  | scaleOverflow
  | missingRarityRates
  | rarityRatesSumInvalid
  | emptyPool
  | zeroTotalWeight
  | negativeWeight
  | noPositiveWeight
  | flatNegativeWeight
  | flatSumInvalid
  | itemNotFound
  | tierNotFound
  deriving DecidableEq, Repr

/-- `GachaItem` from `types.ts` (`rateUp` is optional in TS; absent means
`false`). -/
structure GachaItem where
  name : String
  weight : ℚ
  rateUp : Bool
  deriving DecidableEq, Repr

/-- `RarityInput` from `types.ts`: one pool of items for one rarity tier. -/
structure RarityInput where
  rarity : String
  items : List GachaItem
  deriving DecidableEq, Repr

/-- `GachaEngineConfig`, the tagged union of the two construction modes. -/
inductive GachaEngineConfig where
  | weighted (rarityRates : List (String × ℚ)) (pools : List RarityInput)
  | flatRate (pools : List RarityInput)
  deriving DecidableEq, Repr

/-- The engine's `mode` field. -/
inductive Mode where
  | weighted
  | flatRate
  deriving DecidableEq, Repr

/-- The constructed engine state (two-mode version).  In flat-rate mode the
constructor never assigns `this.pools`, so `pools` stays `[]` there. -/
structure Engine where
  mode : Mode
  pools : List RarityInput
  rarityRatesScaled : List (String × ℤ)
  flatRateMap : List (String × ℚ)
  deriving DecidableEq, Repr

/-- `GachaEngine.toScaled`: scale a probability to the integer domain,
guarding against unsafe-integer overflow. -/
def toScaled (p : ℚ) : Except Err ℤ :=
  if p > (MAX_SAFE_SCALE : ℚ) / (SCALE : ℚ) then .error .scaleOverflow
  else .ok (round (p * (SCALE : ℚ)))

/-- `GachaEngine.fromScaled`: convert a scaled integer back to a probability. -/
def fromScaled (s : ℤ) : ℚ := (s : ℚ) / (SCALE : ℚ)

/-- `GachaEngine.scaleRarityRates`: range-check each tier rate and scale it. -/
def scaleRarityRates : List (String × ℚ) → Except Err (List (String × ℤ))
  | [] => .ok []
  | (rarity, rate) :: rest =>
    if rate < 0 ∨ rate > 1 then .error .rarityRateOutOfRange
    else do
      let s ← toScaled rate
      let rest' ← scaleRarityRates rest
      .ok ((rarity, s) :: rest')

/-- The per-pool checks of `GachaEngine.validateConfig`, in source order:
empty pool, zero total weight, negative item weight, no positive weight. -/
def checkPool (pool : RarityInput) : Except Err Unit :=
  if pool.items = [] then .error .emptyPool
  else if (pool.items.map GachaItem.weight).sum ≤ 0 then .error .zeroTotalWeight
  else if ∃ i ∈ pool.items, i.weight < 0 then .error .negativeWeight
  else if ∃ i ∈ pool.items, i.weight > 0 then .ok ()
  else .error .noPositiveWeight

/-- The `for (const pool of this.pools)` loop of `validateConfig`. -/
def checkPools : List RarityInput → Except Err Unit
  | [] => .ok ()
  | p :: ps => do
    checkPool p
    checkPools ps

/-- `GachaEngine.validateConfig` (weighted mode): missing-tier check, tier-rate
sum check (tolerance `1e-10`), then the per-pool checks. -/
def validateConfig (rarityRatesScaled : List (String × ℤ))
    (originalRates : List (String × ℚ)) (pools : List RarityInput) :
    Except Err Unit :=
  if ∃ p ∈ pools, (rarityRatesScaled.lookup p.rarity).isNone then
    .error .missingRarityRates
  else if |(originalRates.map Prod.snd).sum - 1| > 1 / 10 ^ 10 then
    .error .rarityRatesSumInvalid
  else checkPools pools

/-- `Map.set` semantics: update an existing key in place, else append. -/
def flatInsert (m : List (String × ℚ)) (k : String) (v : ℚ) :
    List (String × ℚ) :=
  if ∃ p ∈ m, p.1 = k then m.map (fun p => if p.1 = k then (k, v) else p)
  else m ++ [(k, v)]

/-- The flat-rate constructor loop: reject negative weights and populate
`flatRateMap` (later duplicates of a name overwrite earlier entries). -/
def buildFlatMap : List GachaItem → List (String × ℚ) →
    Except Err (List (String × ℚ))
  | [], m => .ok m
  | i :: rest, m =>
    if i.weight < 0 then .error .flatNegativeWeight
    else buildFlatMap rest (flatInsert m i.name i.weight)

/-- The `GachaEngine` constructor: dispatch on the mode, validate, and build
the immutable engine state.  A thrown error is a failed construction. -/
def mkEngine : GachaEngineConfig → Except Err Engine
  | .weighted rarityRates pools => do
    let scaled ← scaleRarityRates rarityRates
    validateConfig scaled rarityRates pools
    .ok { mode := .weighted, pools := pools, rarityRatesScaled := scaled,
          flatRateMap := [] }
  | .flatRate pools => do
    let m ← buildFlatMap (pools.flatMap RarityInput.items) []
    if |(m.map Prod.snd).sum - 1| > 1 / 10 ^ 6 then .error .flatSumInvalid
    else .ok { mode := .flatRate, pools := [], rarityRatesScaled := [],
               flatRateMap := m }

/-- The result of the scaled drop-rate computation as JavaScript produces
it: a scaled integer, or one of the non-finite doubles arising from the
division by a scaled pool weight of 0 (`0/0` is `NaN`, `x/0` is `±Infinity`
for `x ≠ 0`, and `Math.round` maps every non-finite value to itself).  The
`NaN` case is reachable from a validly constructed engine: positive item
weights totalling under `5e-7` pass every validation check yet round to a
scaled pool weight of 0. -/
inductive ScaledRate where
  | int (s : ℤ)
  | nan
  | inf
  | negInf
  deriving DecidableEq, Repr

/-- `Math.round(a / b)` on scaled integers, with JavaScript semantics for a
zero divisor: `0/0 = NaN`, `x/0 = ±Infinity` (`x ≠ 0`), each fixed by
`Math.round`. -/
def roundDivJs (a b : ℤ) : ScaledRate :=
  if b = 0 then
    if a = 0 then .nan
    else if 0 < a then .inf
    else .negInf
  else .int (round ((a : ℚ) / (b : ℚ)))

/-- A JavaScript `number` value: a finite number (modelled as an exact
rational), `NaN`, or a signed infinity. -/
inductive JsNum where
  | num (q : ℚ)
  | nan
  | inf
  | negInf
  deriving DecidableEq, Repr

/-- `fromScaled` applied to a stored scaled rate: dividing by `10^6` fixes
the non-finite values. -/
def fromScaledJs : ScaledRate → JsNum
  | .int s => .num (fromScaled s)
  | .nan => .nan
  | .inf => .inf
  | .negInf => .negInf

/-- The drop-rate cache `dropRateCacheScaled`: item name → stored scaled
rate.  The source caches whatever `rateScaled` it computed — including
`NaN`. -/
abbrev Cache := List (String × ScaledRate)

/-- The `for (const pool of this.pools)` search in `getItemDropRate`: the
first pool containing an item of the given name, with that item. -/
def findItem : List RarityInput → String → Option (RarityInput × GachaItem)
  | [], _ => none
  | p :: ps, name =>
    match p.items.find? (fun i => i.name == name) with
    | some i => some (p, i)
    | none => findItem ps name

/-- The scaled-arithmetic body of `getItemDropRate` for a found item of
nonzero weight:
`numeratorScaled = round(itemWeightScaled * baseRarityRateScaled / SCALE)`,
`rateScaled = round(numeratorScaled * SCALE / totalWeightScaled)`.
The final division has JavaScript zero-divisor semantics (`roundDivJs`): a
pool whose total weight rounds to scaled 0 makes the program compute
`Math.round(0 / 0) = NaN`.  (For engines produced by `mkEngine` the rarity
lookup always succeeds, so the `getD 0` default is never read.) -/
def computeRateScaled (rarityRatesScaled : List (String × ℤ))
    (pool : RarityInput) (item : GachaItem) : Except Err ScaledRate := do
  let totalPoolWeight := (pool.items.map GachaItem.weight).sum
  let baseRarityRateScaled := (rarityRatesScaled.lookup pool.rarity).getD 0
  let itemWeightScaled ← toScaled item.weight
  let totalWeightScaled ← toScaled totalPoolWeight
  let numeratorScaled :=
    round (((itemWeightScaled * baseRarityRateScaled : ℤ) : ℚ) / (SCALE : ℚ))
  .ok (roundDivJs (numeratorScaled * SCALE) totalWeightScaled)

/-- `GachaEngine.getItemDropRate`, with the cache passed explicitly.
Flat mode: `flatRateMap.get(name) || 0` and no cache access.  Weighted mode:
cached value if present; otherwise find the item (throwing
`ItemNotFoundError` if absent), short-circuit weight-0 items to 0, else run
the scaled computation; its result — `NaN` included — is cached and
de-scaled. -/
def getItemDropRate (e : Engine) (cache : Cache) (name : String) :
    Except Err JsNum × Cache :=
  match e.mode with
  | .flatRate => (.ok (.num ((e.flatRateMap.lookup name).getD 0)), cache)
  | .weighted =>
    match cache.lookup name with
    | some s => (.ok (fromScaledJs s), cache)
    | none =>
      match findItem e.pools name with
      | none => (.error .itemNotFound, cache)
      | some (pool, item) =>
        if item.weight = 0 then (.ok (.num 0), cache ++ [(name, .int 0)])
        else
          match computeRateScaled e.rarityRatesScaled pool item with
          | .error er => (.error er, cache)
          | .ok s => (.ok (fromScaledJs s), cache ++ [(name, s)])

/-- `getItemDropRate` as called on a fresh engine (empty cache); the cache is
a pure memo of this function, so this is the semantic drop rate. -/
def dropRate (e : Engine) (name : String) : Except Err JsNum :=
  (getItemDropRate e [] name).1

/-- `GachaEngine.getCumulativeProbabilityForItem` (two-mode version, no
clamp): `1 - (1 - rate)^rolls` with the `rate === 0` and `rate >= 1`
short-circuits.  Non-finite rates follow JS comparison/arithmetic rules:
every comparison with `NaN` is false, and `Math.pow(x, 0) = 1` for every
`x` (`NaN` and `±Infinity` included), so a `NaN` rate yields 0 at
`rolls = 0` and `NaN` otherwise; `Infinity >= 1` is true, so an `Infinity`
rate yields 1; a `-Infinity` rate gives `Math.pow(Infinity, rolls)`, i.e. 1
for `rolls = 0` (result 0) and `Infinity` for `rolls ≥ 1` (result
`-Infinity`). -/
def getCumulativeProbabilityForItem (e : Engine) (name : String) (rolls : ℕ) :
    Except Err JsNum := do
  let rate ← dropRate e name
  match rate with
  | .num q =>
    if q = 0 then .ok (.num 0)
    else if q ≥ 1 then .ok (.num 1)
    else .ok (.num (1 - (1 - q) ^ rolls))
  | .nan => if rolls = 0 then .ok (.num 0) else .ok .nan
  | .inf => .ok (.num 1)
  | .negInf => if rolls = 0 then .ok (.num 0) else .ok .negInf

/-- `GachaEngine.getRollsForTargetProbability`: target edge cases first, then
the item's rate (which may throw), then `Infinity` for non-positive rates,
else `Math.ceil(Math.log(1 - target) / Math.log(1 - rate))`.  Non-finite
rates: `NaN <= 0` and `Infinity <= 0` are false and `Math.log` of `NaN` or
of `-Infinity` is `NaN`, so both yield `NaN`; `-Infinity <= 0` is true,
yielding `Infinity`. -/
noncomputable def getRollsForTargetProbability (e : Engine) (name : String)
    (targetProbability : ℚ) : Except Err JsNum :=
  if targetProbability ≤ 0 then .ok (.num 0)
  else if targetProbability ≥ 1 then .ok (.num 1)
  else do
    let rate ← dropRate e name
    match rate with
    | .num q =>
      if q ≤ 0 then .ok .inf
      else .ok (.num ((⌈Real.log (1 - (targetProbability : ℝ)) /
        Real.log (1 - (q : ℝ))⌉ : ℤ) : ℚ))
    | .nan => .ok .nan
    | .inf => .ok .nan
    | .negInf => .ok .inf

/-- The cumulative walk of `selectRarity`: first entry whose cumulative
scaled rate exceeds the drawn integer. -/
def walkRarity : List (String × ℤ) → ℤ → ℤ → Option String
  | [], _, _ => none
  | (rarity, s) :: rest, rand, cumulative =>
    if rand < cumulative + s then some rarity
    else walkRarity rest rand (cumulative + s)

/-- `GachaEngine.selectRarity`: draw `⌊r * SCALE⌋`, walk the scaled tier
rates, and fall back to the first configured tier (`none` only when the tier
table is empty, where the JS code would crash). -/
def selectRarity (e : Engine) (r : ℚ) : Option String :=
  match walkRarity e.rarityRatesScaled ⌊r * (SCALE : ℚ)⌋ 0 with
  | some rarity => some rarity
  | none => (e.rarityRatesScaled.head?).map Prod.fst

/-- The cumulative walk of `selectItemFromPool` over scaled item weights. -/
def walkItems : List (GachaItem × ℤ) → ℤ → ℤ → Option GachaItem
  | [], _, _ => none
  | (i, w) :: rest, rand, cumulative =>
    if rand < cumulative + w then some i
    else walkItems rest rand (cumulative + w)

/-- Scale the weights of the positive-weight items (`items.map(i => ...
toScaled(i.weight))`); an overflow aborts the whole roll. -/
def scaleItems : List GachaItem → Except Err (List (GachaItem × ℤ))
  | [] => .ok []
  | i :: rest => do
    let w ← toScaled i.weight
    let rest' ← scaleItems rest
    .ok ((i, w) :: rest')

/-- `GachaEngine.selectItemFromPool`: filter to positive weights, scale,
draw `⌊r * totalScaledWeight⌋`, walk, and fall back to the first
positive-weight item.  `.ok none` is the JS crash on an empty filtered list
(`items[0]` is `undefined`). -/
def selectItemFromPool (pool : RarityInput) (r : ℚ) :
    Except Err (Option GachaItem) := do
  let items := pool.items.filter (fun i => 0 < i.weight)
  let scaledItems ← scaleItems items
  let totalScaledWeight := (scaledItems.map Prod.snd).sum
  let rand := ⌊r * (totalScaledWeight : ℚ)⌋
  match walkItems scaledItems rand 0 with
  | some i => .ok (some i)
  | none => .ok items.head?

/-- One weighted-mode draw of `roll`, consuming two random values: tier
selection then item selection.  `none` is a crash: an empty tier table, a
selected tier with no pool (`this.pools.find(...)!` is `undefined`), a scale
overflow, or an empty filtered pool. -/
def drawWeighted (e : Engine) (r1 r2 : ℚ) : Option String :=
  match selectRarity e r1 with
  | none => none
  | some rarity =>
    match e.pools.find? (fun p => p.rarity == rarity) with
    | none => none
    | some pool =>
      match selectItemFromPool pool r2 with
      | .error _ => none
      | .ok none => none
      | .ok (some i) => some i.name

/-- The flat-mode walk of a single draw of `roll`: first map entry whose
cumulative rate exceeds the drawn real.  `none` means no entry was pushed
(the loop ran out) — the flat branch of `roll` has no fallback. -/
def walkFlat : List (String × ℚ) → ℚ → ℚ → Option String
  | [], _, _ => none
  | (name, rate) :: rest, rand, cumulative =>
    if rand < cumulative + rate then some name
    else walkFlat rest rand (cumulative + rate)

/-- One flat-mode draw of `roll`, consuming one random value. -/
def drawFlat (e : Engine) (r : ℚ) : Option String :=
  walkFlat e.flatRateMap r 0

/-- The weighted-mode `roll` loop: draw i consumes stream indices `2i` and
`2i + 1`; any crash aborts the whole call. -/
def rollWeightedAux (e : Engine) (rng : ℕ → ℚ) : ℕ → ℕ → Option (List String)
  | 0, _ => some []
  | n + 1, i => do
    let name ← drawWeighted e (rng (2 * i)) (rng (2 * i + 1))
    let rest ← rollWeightedAux e rng n (i + 1)
    some (name :: rest)

/-- The flat-mode `roll` loop: draw i consumes stream index i; a draw whose
walk falls short contributes nothing to the result. -/
def rollFlatAux (e : Engine) (rng : ℕ → ℚ) : ℕ → ℕ → List String
  | 0, _ => []
  | n + 1, i =>
    (match drawFlat e (rng i) with
     | some name => [name]
     | none => []) ++ rollFlatAux e rng n (i + 1)

/-- `GachaEngine.roll(count)` with an injected random stream.  `none` is a
thrown error (only possible in weighted mode). -/
def roll (e : Engine) (rng : ℕ → ℚ) (count : ℕ) : Option (List String) :=
  match e.mode with
  | .flatRate => some (rollFlatAux e rng count 0)
  | .weighted => rollWeightedAux e rng count 0

/-- All item names of a pool list, in declared order. -/
def allItemNames (pools : List RarityInput) : List String :=
  pools.flatMap (fun p => p.items.map GachaItem.name)

namespace V1

/-- The engine state of the weighted-only `src/gacha-engine.ts`. -/
structure Engine where
  pools : List RarityInput
  rarityRatesScaled : List (String × ℤ)
  deriving DecidableEq, Repr

/-- The `src/gacha-engine.ts` constructor: scale the tier rates, then run the
same `validateConfig` (its extra scaled-sum check only `console.warn`s and
never throws). -/
def mkEngine (rarityRates : List (String × ℚ)) (pools : List RarityInput) :
    Except Err Engine := do
  let scaled ← scaleRarityRates rarityRates
  validateConfig scaled rarityRates pools
  .ok { pools := pools, rarityRatesScaled := scaled }

/-- `getItemDropRateScaled` (equivalently, the scaled value computed and
cached by `getItemDropRate` — `NaN` included). -/
def getItemDropRateScaled (e : Engine) (name : String) : Except Err ScaledRate :=
  match findItem e.pools name with
  | none => .error .itemNotFound
  | some (pool, item) =>
    if item.weight = 0 then .ok (.int 0)
    else computeRateScaled e.rarityRatesScaled pool item

/-- `getItemDropRate` of the weighted-only engine. -/
def getItemDropRate (e : Engine) (name : String) : Except Err JsNum :=
  (getItemDropRateScaled e name).map fromScaledJs

/-- `getRarityProbability`: `if (!this.rarityRatesScaled[rarity]) throw`,
so an absent tier *and* a tier whose scaled rate is the falsy `0` both throw;
otherwise the de-scaled stored rate is returned. -/
def getRarityProbability (e : Engine) (rarity : String) : Except Err ℚ :=
  match e.rarityRatesScaled.lookup rarity with
  | none => .error .tierNotFound
  | some s => if s = 0 then .error .tierNotFound else .ok (fromScaled s)

/-- `getCumulativeProbabilityForItem` of `src/gacha-engine.ts`: works on the
scaled rate, and clamps the result with `Math.min(1, Math.max(0, ·))`.
Non-finite scaled rates follow JS rules: comparisons with `NaN` are false
and `Math.pow(NaN, 0) = 1`, so a `NaN` rate yields 0 at `rolls = 0`, and
otherwise `NaN` — which *escapes* the clamp, since `Math.max(0, NaN)` and
`Math.min(1, NaN)` are both `NaN`.  `Infinity >= SCALE` is true (result 1);
a `-Infinity` rate gives `failRate = Infinity` and `Math.pow(Infinity,
rolls)` is `Infinity` for positive rolls (clamped to 0), 1 at zero (result
0) and `+0` for negative rolls (result clamped to 1). -/
def getCumulativeProbabilityForItem (e : Engine) (name : String) (rolls : ℤ) :
    Except Err JsNum := do
  let rateScaled ← getItemDropRateScaled e name
  match rateScaled with
  | .int s =>
    if s = 0 then .ok (.num 0)
    else if s ≥ SCALE then .ok (.num 1)
    else
      let failRate := fromScaled (SCALE - s)
      .ok (.num (min 1 (max 0 (1 - failRate ^ rolls))))
  | .nan => if rolls = 0 then .ok (.num 0) else .ok .nan
  | .inf => .ok (.num 1)
  | .negInf => if rolls < 0 then .ok (.num 1) else .ok (.num 0)

end V1

/-! ## Arithmetic helpers -/

theorem round_le_round {x y : ℚ} (h : x ≤ y) : round x ≤ round y := by
  rw [round_eq, round_eq]
  exact Int.floor_mono (by linarith)

theorem round_eq_of {x : ℚ} {n : ℤ} (h1 : (n : ℚ) ≤ x + 1 / 2)
    (h2 : x + 1 / 2 < n + 1) : round x = n := by
  rw [round_eq]
  exact Int.floor_eq_iff.mpr ⟨h1, by linarith⟩

theorem round_nonneg {x : ℚ} (h : 0 ≤ x) : 0 ≤ round x := by
  have := round_le_round h
  simpa using this

theorem MAX_SAFE_SCALE_eq : MAX_SAFE_SCALE = 9007199254 := by
  unfold MAX_SAFE_SCALE MAX_SAFE_INTEGER SCALE
  rw [Int.floor_eq_iff]
  norm_num

theorem one_le_maxSafeRatio : (1 : ℚ) ≤ (MAX_SAFE_SCALE : ℚ) / (SCALE : ℚ) := by
  rw [MAX_SAFE_SCALE_eq]
  unfold SCALE
  norm_num

theorem toScaled_eq_ok {p : ℚ} (h : p ≤ (MAX_SAFE_SCALE : ℚ) / (SCALE : ℚ)) :
    toScaled p = .ok (round (p * (SCALE : ℚ))) := by
  unfold toScaled
  rw [if_neg (not_lt.mpr h)]

theorem toScaled_eq_ok_of_le_one {p : ℚ} (h : p ≤ 1) :
    toScaled p = .ok (round (p * (SCALE : ℚ))) :=
  toScaled_eq_ok (h.trans one_le_maxSafeRatio)

theorem lookup_map_value {β γ : Type} (f : β → γ) (l : List (String × β))
    (k : String) :
    (l.map (fun q => (q.1, f q.2))).lookup k = (l.lookup k).map f := by
  induction l with
  | nil => rfl
  | cons q rest ih =>
    obtain ⟨a, b⟩ := q
    simp only [List.map_cons, List.lookup_cons]
    cases h : k == a <;> simp [ih]

/-! ## Characterizing construction -/

/-- The scaled tier-rate table that a successful construction stores. -/
def scaledOf (rates : List (String × ℚ)) : List (String × ℤ) :=
  rates.map (fun q => (q.1, round (q.2 * (SCALE : ℚ))))

theorem scaleRarityRates_ok {rates : List (String × ℚ)}
    {scaled : List (String × ℤ)} (h : scaleRarityRates rates = .ok scaled) :
    (∀ q ∈ rates, 0 ≤ q.2 ∧ q.2 ≤ 1) ∧ scaled = scaledOf rates := by
  induction rates generalizing scaled with
  | nil =>
    simp only [scaleRarityRates, Except.ok.injEq] at h
    subst h
    exact ⟨by simp, by simp [scaledOf]⟩
  | cons q rest ih =>
    obtain ⟨k, r⟩ := q
    by_cases hr : r < 0 ∨ r > 1
    · simp only [scaleRarityRates, if_pos hr] at h
      cases h
    · push_neg at hr
      have hcond : ¬ (r < 0 ∨ r > 1) := by
        rw [not_or]
        exact ⟨not_lt.mpr hr.1, not_lt.mpr hr.2⟩
      simp only [scaleRarityRates, if_neg hcond,
        toScaled_eq_ok_of_le_one hr.2] at h
      cases hrest : scaleRarityRates rest with
      | error e =>
        rw [hrest] at h
        simp only [Bind.bind, Except.bind] at h
        cases h
      | ok rest' =>
        rw [hrest] at h
        simp only [Bind.bind, Except.bind, Except.ok.injEq] at h
        subst h
        obtain ⟨h1, h2⟩ := ih hrest
        constructor
        · intro p hp
          rcases List.mem_cons.mp hp with rfl | hp'
          · exact ⟨hr.1, hr.2⟩
          · exact h1 p hp'
        · simp [scaledOf] at h2 ⊢
          exact h2

theorem scaleRarityRates_eq_ok_of {rates : List (String × ℚ)}
    (h : ∀ q ∈ rates, 0 ≤ q.2 ∧ q.2 ≤ 1) :
    scaleRarityRates rates = .ok (scaledOf rates) := by
  induction rates with
  | nil => simp [scaleRarityRates, scaledOf]
  | cons q rest ih =>
    obtain ⟨k, r⟩ := q
    have hq := h (k, r) (by simp)
    have hcond : ¬ ((k, r).2 < 0 ∨ (k, r).2 > 1) := by
      rw [not_or]
      exact ⟨not_lt.mpr hq.1, not_lt.mpr hq.2⟩
    simp only [scaleRarityRates]
    rw [if_neg hcond, toScaled_eq_ok_of_le_one hq.2,
      ih (fun p hp => h p (by simp [hp]))]
    simp [Bind.bind, Except.bind, scaledOf]

theorem checkPool_ok_iff {pool : RarityInput} : checkPool pool = .ok () ↔
    pool.items ≠ [] ∧ 0 < (pool.items.map GachaItem.weight).sum ∧
    (∀ i ∈ pool.items, 0 ≤ i.weight) ∧ ∃ i ∈ pool.items, 0 < i.weight := by
  constructor
  · intro h
    unfold checkPool at h
    split_ifs at h with h1 h2 h3 h4
    try cases h
    refine ⟨h1, not_le.mp h2, fun i hi => ?_, h4⟩
    by_contra hneg
    exact h3 ⟨i, hi, not_le.mp hneg⟩
  · rintro ⟨hne, hpos, hall, hex⟩
    have h3 : ¬ ∃ i ∈ pool.items, i.weight < 0 := by
      push_neg
      exact fun i hi => hall i hi
    unfold checkPool
    rw [if_neg hne, if_neg (not_le.mpr hpos), if_neg h3, if_pos hex]

theorem checkPools_ok_iff {pools : List RarityInput} :
    checkPools pools = .ok () ↔ ∀ p ∈ pools, checkPool p = .ok () := by
  induction pools with
  | nil => simp [checkPools]
  | cons p ps ih =>
    simp only [checkPools]
    cases h : checkPool p with
    | error e => simp [Bind.bind, Except.bind, h, ih]
    | ok u => cases u; simp [Bind.bind, Except.bind, h, ih]

theorem validateConfig_ok_iff {scaled : List (String × ℤ)}
    {rates : List (String × ℚ)} {pools : List RarityInput} :
    validateConfig scaled rates pools = .ok () ↔
      (∀ p ∈ pools, (scaled.lookup p.rarity).isSome) ∧
      |(rates.map Prod.snd).sum - 1| ≤ 1 / 10 ^ 10 ∧
      ∀ p ∈ pools, checkPool p = .ok () := by
  constructor
  · intro h
    unfold validateConfig at h
    split_ifs at h with h1 h2
    push_neg at h1
    rw [checkPools_ok_iff] at h
    refine ⟨fun p hp => ?_, not_lt.mp h2, h⟩
    have := h1 p hp
    simpa [Option.isNone_iff_eq_none, ← Option.ne_none_iff_isSome] using this
  · rintro ⟨hsome, hsum, hpools⟩
    have h1 : ¬ ∃ p ∈ pools, (scaled.lookup p.rarity).isNone := by
      push_neg
      intro p hp
      simpa [Option.isNone_iff_eq_none, ← Option.ne_none_iff_isSome] using hsome p hp
    unfold validateConfig
    rw [if_neg h1, if_neg (not_lt.mpr hsum), checkPools_ok_iff]
    exact hpools

theorem mkEngine_weighted_eq_ok {rates : List (String × ℚ)}
    {pools : List RarityInput} {e : Engine} :
    mkEngine (.weighted rates pools) = .ok e ↔
      (∀ q ∈ rates, 0 ≤ q.2 ∧ q.2 ≤ 1) ∧
      validateConfig (scaledOf rates) rates pools = .ok () ∧
      e = ⟨.weighted, pools, scaledOf rates, []⟩ := by
  constructor
  · intro h
    simp only [mkEngine] at h
    cases hs : scaleRarityRates rates with
    | error er => rw [hs] at h; simp [Bind.bind, Except.bind] at h
    | ok scaled =>
      obtain ⟨hr, rfl⟩ := scaleRarityRates_ok hs
      rw [hs] at h
      simp only [Bind.bind, Except.bind] at h
      cases hv : validateConfig (scaledOf rates) rates pools with
      | error er =>
        rw [hv] at h
        cases h
      | ok u =>
        cases u
        rw [hv] at h
        simp only [Except.ok.injEq] at h
        exact ⟨hr, rfl, h.symm⟩
  · rintro ⟨hr, hv, rfl⟩
    simp only [mkEngine]
    rw [scaleRarityRates_eq_ok_of hr]
    simp only [Bind.bind, Except.bind]
    rw [hv]

theorem buildFlatMap_ok_nodup (items : List GachaItem) :
    (items.map GachaItem.name).Nodup →
    ∀ m0 : List (String × ℚ), (∀ i ∈ items, ∀ q ∈ m0, q.1 ≠ i.name) →
    (∀ i ∈ items, 0 ≤ i.weight) →
    buildFlatMap items m0 = .ok (m0 ++ items.map (fun i => (i.name, i.weight))) := by
  induction items with
  | nil =>
    intro _ m0 _ _
    simp [buildFlatMap]
  | cons i rest ih =>
    intro hnodup m0 hfresh hnonneg
    have hnd : (∀ x ∈ rest, ¬ x.name = i.name) ∧
        (List.map GachaItem.name rest).Nodup := by
      simpa using hnodup
    have hw : ¬ i.weight < 0 := not_lt.mpr (hnonneg i (by simp))
    have hins : flatInsert m0 i.name i.weight = m0 ++ [(i.name, i.weight)] := by
      unfold flatInsert
      rw [if_neg]
      push_neg
      exact fun q hq => hfresh i (by simp) q hq
    simp only [buildFlatMap, if_neg hw, hins]
    rw [ih hnd.2 (m0 ++ [(i.name, i.weight)]) ?fresh
      (fun j hj => hnonneg j (by simp [hj]))]
    · simp
    case fresh =>
      intro j hj q hq
      rcases List.mem_append.mp hq with hq' | hq'
      · exact hfresh j (by simp [hj]) q hq'
      · have hqe : q = (i.name, i.weight) := by simpa using hq'
        subst hqe
        intro hcontra
        exact hnd.1 j hj (by simpa using hcontra.symm)

theorem buildFlatMap_isOk_iff (items : List GachaItem) :
    ∀ m0, (∃ m, buildFlatMap items m0 = .ok m) ↔ ∀ i ∈ items, 0 ≤ i.weight := by
  induction items with
  | nil =>
    intro m0
    simp [buildFlatMap]
  | cons i rest ih =>
    intro m0
    by_cases hw : i.weight < 0
    · simp only [buildFlatMap, if_pos hw]
      constructor
      · rintro ⟨m, hm⟩; cases hm
      · intro hall; exact absurd (hall i (by simp)) (not_le.mpr hw)
    · simp only [buildFlatMap, if_neg hw]
      rw [ih (flatInsert m0 i.name i.weight)]
      constructor
      · intro hall j hj
        rcases List.mem_cons.mp hj with rfl | hj'
        · exact not_lt.mp hw
        · exact hall j hj'
      · intro hall j hj
        exact hall j (by simp [hj])

theorem allItemNames_eq (pools : List RarityInput) :
    allItemNames pools = (pools.flatMap RarityInput.items).map GachaItem.name := by
  simp [allItemNames, List.map_flatMap]

theorem mkEngine_flat_eq_ok {pools : List RarityInput} {e : Engine}
    (hnodup : (allItemNames pools).Nodup) :
    mkEngine (.flatRate pools) = .ok e ↔
      (∀ i ∈ pools.flatMap RarityInput.items, 0 ≤ i.weight) ∧
      |((pools.flatMap RarityInput.items).map GachaItem.weight).sum - 1| ≤ 1 / 10 ^ 6 ∧
      e = ⟨.flatRate, [], [],
        (pools.flatMap RarityInput.items).map (fun i => (i.name, i.weight))⟩ := by
  rw [allItemNames_eq] at hnodup
  constructor
  · intro h
    simp only [mkEngine] at h
    cases hb : buildFlatMap (pools.flatMap RarityInput.items) [] with
    | error er => rw [hb] at h; simp [Bind.bind, Except.bind] at h
    | ok m =>
      have hnonneg : ∀ i ∈ pools.flatMap RarityInput.items, 0 ≤ i.weight :=
        (buildFlatMap_isOk_iff _ _).mp ⟨m, hb⟩
      have hm : m = (pools.flatMap RarityInput.items).map
          (fun i => (i.name, i.weight)) := by
        have := buildFlatMap_ok_nodup _ hnodup [] (by simp) hnonneg
        rw [hb] at this
        simpa using this
      subst hm
      rw [hb] at h
      simp only [Bind.bind, Except.bind] at h
      split_ifs at h with hsum
      try cases h
      refine ⟨hnonneg, ?_, rfl⟩
      have hmap : ((pools.flatMap RarityInput.items).map
          (fun i => (i.name, i.weight))).map Prod.snd =
          (pools.flatMap RarityInput.items).map GachaItem.weight := by
        simp [List.map_map, Function.comp]
      rw [hmap] at hsum
      exact not_lt.mp hsum
  · rintro ⟨hnonneg, hsum, rfl⟩
    simp only [mkEngine]
    rw [buildFlatMap_ok_nodup _ hnodup [] (by simp) hnonneg]
    simp only [Bind.bind, Except.bind, List.nil_append]
    rw [if_neg]
    rw [not_lt]
    have : ((pools.flatMap RarityInput.items).map
        (fun i => (i.name, i.weight))).map Prod.snd =
        (pools.flatMap RarityInput.items).map GachaItem.weight := by
      simp [List.map_map, Function.comp]
    rw [this]
    exact hsum

/-! ## Finding items -/

theorem findItem_some {pools : List RarityInput} {name : String}
    {pool : RarityInput} {item : GachaItem}
    (h : findItem pools name = some (pool, item)) :
    pool ∈ pools ∧ item ∈ pool.items ∧ item.name = name := by
  induction pools with
  | nil => cases h
  | cons p ps ih =>
    simp only [findItem] at h
    cases hf : p.items.find? (fun i => i.name == name) with
    | some i =>
      rw [hf] at h
      simp only [Option.some.injEq, Prod.mk.injEq] at h
      obtain ⟨rfl, rfl⟩ := h
      refine ⟨by simp, List.mem_of_find?_eq_some hf, ?_⟩
      simpa using List.find?_some hf
    | none =>
      rw [hf] at h
      obtain ⟨h1, h2, h3⟩ := ih h
      exact ⟨by simp [h1], h2, h3⟩

theorem findItem_eq_none {pools : List RarityInput} {name : String}
    (h : name ∉ allItemNames pools) : findItem pools name = none := by
  induction pools with
  | nil => rfl
  | cons p ps ih =>
    simp only [allItemNames, List.flatMap_cons, List.mem_append] at h
    push_neg at h
    simp only [findItem]
    cases hf : p.items.find? (fun i => i.name == name) with
    | some i =>
      exfalso
      have hmem := List.mem_of_find?_eq_some hf
      have hpi : i.name = name := by simpa using List.find?_some hf
      exact h.1 (by rw [← hpi]; exact List.mem_map_of_mem GachaItem.name hmem)
    | none =>
      exact ih (by simpa [allItemNames] using h.2)

theorem findItem_eq_some_of_nodup (pools : List RarityInput) :
    (allItemNames pools).Nodup →
    ∀ {pool : RarityInput} {item : GachaItem} {name : String},
    pool ∈ pools → item ∈ pool.items → item.name = name →
    findItem pools name = some (pool, item) := by
  induction pools with
  | nil =>
    intro _ pool item name hp _ _
    cases hp
  | cons q ps ih =>
    intro hnodup pool item name hp hi hn
    have hnd : (q.items.map GachaItem.name).Nodup ∧
        (ps.flatMap (fun p => p.items.map GachaItem.name)).Nodup ∧
        (q.items.map GachaItem.name).Disjoint
          (ps.flatMap (fun p => p.items.map GachaItem.name)) := by
      simpa [allItemNames, List.nodup_append] using hnodup
    rcases List.mem_cons.mp hp with rfl | hp'
    · simp only [findItem]
      cases hf : pool.items.find? (fun i => i.name == name) with
      | none =>
        exfalso
        have := List.find?_eq_none.mp hf item hi
        simp [hn] at this
      | some j =>
        have hj := List.mem_of_find?_eq_some hf
        have hjn : j.name = name := by simpa using List.find?_some hf
        have : j = item :=
          List.inj_on_of_nodup_map hnd.1 hj hi (by rw [hjn, hn])
        rw [this]
    · simp only [findItem]
      cases hf : q.items.find? (fun i => i.name == name) with
      | some j =>
        exfalso
        have hj := List.mem_of_find?_eq_some hf
        have hjn : j.name = name := by simpa using List.find?_some hf
        have h1 : name ∈ q.items.map GachaItem.name := by
          rw [← hjn]
          exact List.mem_map_of_mem GachaItem.name hj
        have h2 : name ∈ ps.flatMap (fun p => p.items.map GachaItem.name) :=
          List.mem_flatMap.mpr ⟨pool, hp',
            hn ▸ List.mem_map_of_mem GachaItem.name hi⟩
        exact hnd.2.2 h1 h2
      | none =>
        exact ih (by simpa [allItemNames] using hnd.2.1) hp' hi hn

/-! ## Bounds on the scaled drop-rate computation -/

theorem SCALE_posQ : (0 : ℚ) < ((SCALE : ℤ) : ℚ) := by
  unfold SCALE
  norm_num

theorem toScaled_ok_inv {p : ℚ} {v : ℤ} (h : toScaled p = .ok v) :
    v = round (p * (SCALE : ℚ)) := by
  unfold toScaled at h
  split_ifs at h
  simpa using h.symm

theorem round_eq_zero_of {x : ℚ} (h0 : 0 ≤ x) (h1 : x < 1 / 2) :
    round x = 0 :=
  round_eq_of (by push_cast; linarith) (by push_cast; linarith)

/-- Inversion of a successful scaled drop-rate computation: when the pool's
total weight rounds to a nonzero scaled integer the result is a scaled
integer in `[0, SCALE]`; when it rounds to `0` the JS division `0 / 0`
makes the result `NaN`. -/
theorem computeRateScaled_ok_inv {scaled : List (String × ℤ)}
    {pool : RarityInput} {item : GachaItem} {b : ℤ} {s : ScaledRate}
    (hb : scaled.lookup pool.rarity = some b) (hb0 : 0 ≤ b) (hb1 : b ≤ SCALE)
    (hmem : item ∈ pool.items) (hall : ∀ i ∈ pool.items, 0 ≤ i.weight)
    (h : computeRateScaled scaled pool item = .ok s) :
    (round ((pool.items.map GachaItem.weight).sum * (SCALE : ℚ)) = 0 ∧
      s = .nan) ∨
    (round ((pool.items.map GachaItem.weight).sum * (SCALE : ℚ)) ≠ 0 ∧
      ∃ k : ℤ, s = .int k ∧ 0 ≤ k ∧ k ≤ SCALE) := by
  have hw0 : 0 ≤ item.weight := hall item hmem
  have hwW : item.weight ≤ (pool.items.map GachaItem.weight).sum := by
    refine List.single_le_sum (fun w hw => ?_) _
      (List.mem_map_of_mem GachaItem.weight hmem)
    obtain ⟨i, hi, rfl⟩ := List.mem_map.mp hw
    exact hall i hi
  unfold computeRateScaled at h
  rw [hb] at h
  cases hiw : toScaled item.weight with
  | error er =>
    rw [hiw] at h
    cases h
  | ok iw =>
    rw [hiw] at h
    simp only [Bind.bind, Except.bind] at h
    cases htw : toScaled ((pool.items.map GachaItem.weight).sum) with
    | error er =>
      rw [htw] at h
      cases h
    | ok tw =>
      rw [htw] at h
      simp only [Except.ok.injEq, Option.getD_some] at h
      have hiw' := toScaled_ok_inv hiw
      have htw' := toScaled_ok_inv htw
      have hiw0 : 0 ≤ iw := by
        rw [hiw']
        exact round_nonneg (mul_nonneg hw0 SCALE_posQ.le)
      have hiwtw : iw ≤ tw := by
        rw [hiw', htw']
        exact round_le_round (mul_le_mul_of_nonneg_right hwW SCALE_posQ.le)
      set num := round (((iw * b : ℤ) : ℚ) / ((SCALE : ℤ) : ℚ)) with hnum
      have hnum0 : 0 ≤ num := by
        rw [hnum]
        refine round_nonneg (div_nonneg ?_ SCALE_posQ.le)
        push_cast
        exact mul_nonneg (by exact_mod_cast hiw0) (by exact_mod_cast hb0)
      have hnumiw : num ≤ iw := by
        rw [hnum]
        calc round (((iw * b : ℤ) : ℚ) / ((SCALE : ℤ) : ℚ))
            ≤ round ((iw : ℚ)) := by
              refine round_le_round ?_
              rw [div_le_iff₀ SCALE_posQ]
              push_cast
              exact mul_le_mul_of_nonneg_left (by exact_mod_cast hb1)
                (by exact_mod_cast hiw0)
          _ = iw := round_intCast iw
      rcases eq_or_lt_of_le (le_trans hnum0 hnumiw |>.trans hiwtw) with htw0 | htwpos
      · -- `tw = 0`: the numerator is forced to 0 as well, and `0 / 0` is `NaN`
        left
        have hnum_eq : num = 0 := by omega
        refine ⟨htw' ▸ htw0.symm, ?_⟩
        rw [← h, ← htw0, hnum_eq]
        unfold roundDivJs
        norm_num
      · right
        have htwQ : (0 : ℚ) < ((tw : ℤ) : ℚ) := by exact_mod_cast htwpos
        refine ⟨by omega, ?_⟩
        rw [← h]
        unfold roundDivJs
        rw [if_neg htwpos.ne']
        refine ⟨round (((num * SCALE : ℤ) : ℚ) / ((tw : ℤ) : ℚ)), rfl, ?_, ?_⟩
        · refine round_nonneg (div_nonneg ?_ htwQ.le)
          push_cast
          exact mul_nonneg (by exact_mod_cast hnum0) SCALE_posQ.le
        · calc round (((num * SCALE : ℤ) : ℚ) / ((tw : ℤ) : ℚ))
              ≤ round (((SCALE : ℤ) : ℚ)) := by
                refine round_le_round ?_
                rw [div_le_iff₀ htwQ]
                have : (num : ℚ) ≤ (tw : ℚ) := by
                  exact_mod_cast le_trans hnumiw hiwtw
                push_cast
                calc (num : ℚ) * ((SCALE : ℤ) : ℚ)
                    ≤ (tw : ℚ) * ((SCALE : ℤ) : ℚ) :=
                      mul_le_mul_of_nonneg_right this SCALE_posQ.le
                  _ = ((SCALE : ℤ) : ℚ) * (tw : ℚ) := by ring
            _ = SCALE := round_intCast SCALE

/-- When the pool's total weight rounds to scaled `0` (all weights
non-negative), every item weight also rounds to scaled `0`, no overflow
throw is reachable, and the scaled drop-rate computation returns
`Math.round(0 / 0) = NaN`. -/
theorem computeRateScaled_nan {scaled : List (String × ℤ)}
    {pool : RarityInput} {item : GachaItem}
    (hmem : item ∈ pool.items) (hall : ∀ i ∈ pool.items, 0 ≤ i.weight)
    (htw0 : round ((pool.items.map GachaItem.weight).sum * (SCALE : ℚ)) = 0) :
    computeRateScaled scaled pool item = .ok .nan := by
  have hS : ((SCALE : ℤ) : ℚ) = 1000000 := by
    unfold SCALE
    norm_num
  have hw0 : 0 ≤ item.weight := hall item hmem
  have hwW : item.weight ≤ (pool.items.map GachaItem.weight).sum := by
    refine List.single_le_sum (fun w hw => ?_) _
      (List.mem_map_of_mem GachaItem.weight hmem)
    obtain ⟨i, hi, rfl⟩ := List.mem_map.mp hw
    exact hall i hi
  have hsum0 : 0 ≤ (pool.items.map GachaItem.weight).sum := le_trans hw0 hwW
  have hlt : (pool.items.map GachaItem.weight).sum * ((SCALE : ℤ) : ℚ) <
      1 / 2 := by
    by_contra hge
    push_neg at hge
    have h1 : (1 : ℤ) ≤
        round ((pool.items.map GachaItem.weight).sum * ((SCALE : ℤ) : ℚ)) := by
      rw [round_eq]
      refine Int.le_floor.mpr ?_
      push_cast
      linarith
    omega
  have hts : toScaled ((pool.items.map GachaItem.weight).sum) = .ok 0 := by
    rw [toScaled_eq_ok_of_le_one (by nlinarith [hS]), htw0]
  have hti : toScaled item.weight = .ok 0 := by
    rw [toScaled_eq_ok_of_le_one (by nlinarith [hS])]
    congr 1
    refine round_eq_zero_of (mul_nonneg hw0 SCALE_posQ.le) ?_
    calc item.weight * ((SCALE : ℤ) : ℚ)
        ≤ (pool.items.map GachaItem.weight).sum * ((SCALE : ℤ) : ℚ) :=
          mul_le_mul_of_nonneg_right hwW SCALE_posQ.le
      _ < 1 / 2 := hlt
  unfold computeRateScaled
  simp only [hti, hts, Bind.bind, Except.bind, Except.ok.injEq, zero_mul,
    Int.cast_zero, zero_div, round_zero]
  unfold roundDivJs
  norm_num

theorem lookup_mem {β : Type} {l : List (String × β)} {k : String} {v : β}
    (h : l.lookup k = some v) : (k, v) ∈ l := by
  induction l with
  | nil => cases h
  | cons q rest ih =>
    obtain ⟨a, b⟩ := q
    by_cases hk : k = a
    · subst hk
      simp only [List.lookup_cons, beq_self_eq_true, cond_true,
        Option.some.injEq] at h
      subst h
      exact List.mem_cons_self _ _
    · have hbeq : (k == a) = false := beq_eq_false_iff_ne.mpr hk
      rw [List.lookup_cons, hbeq] at h
      exact List.mem_cons_of_mem _ (ih h)

theorem lookup_scaledOf {rates : List (String × ℚ)} {k : String} :
    (scaledOf rates).lookup k =
      (rates.lookup k).map (fun r => round (r * (SCALE : ℚ))) := by
  unfold scaledOf
  exact lookup_map_value (fun r => round (r * ((SCALE : ℤ) : ℚ))) rates k

theorem base_bounds {rates : List (String × ℚ)} {k : String}
    (hr : ∀ q ∈ rates, 0 ≤ q.2 ∧ q.2 ≤ 1) {b : ℤ}
    (hb : (scaledOf rates).lookup k = some b) :
    0 ≤ b ∧ b ≤ SCALE := by
  rw [lookup_scaledOf] at hb
  cases hl : rates.lookup k with
  | none =>
    rw [hl] at hb
    cases hb
  | some r =>
    rw [hl] at hb
    simp only [Option.map_some', Option.some.injEq] at hb
    have hmem := lookup_mem hl
    have hrr := hr _ hmem
    subst hb
    constructor
    · exact round_nonneg (mul_nonneg hrr.1 SCALE_posQ.le)
    · calc round (r * ((SCALE : ℤ) : ℚ))
          ≤ round (((SCALE : ℤ) : ℚ)) := by
            refine round_le_round ?_
            calc r * ((SCALE : ℤ) : ℚ)
                ≤ 1 * ((SCALE : ℤ) : ℚ) :=
                  mul_le_mul_of_nonneg_right hrr.2 SCALE_posQ.le
              _ = ((SCALE : ℤ) : ℚ) := one_mul _
        _ = SCALE := round_intCast SCALE

/-! ## Reduction of `getItemDropRate` on a fresh engine -/

theorem dropRate_weighted {e : Engine} (hm : e.mode = .weighted)
    (name : String) :
    dropRate e name =
      match findItem e.pools name with
      | none => .error .itemNotFound
      | some (pool, item) =>
        if item.weight = 0 then .ok (.num 0)
        else (computeRateScaled e.rarityRatesScaled pool item).map
          fromScaledJs := by
  unfold dropRate getItemDropRate
  rw [hm]
  cases hf : findItem e.pools name with
  | none => simp [hf]
  | some pi =>
    obtain ⟨pool, item⟩ := pi
    by_cases hw : item.weight = 0
    · simp [hf, hw]
    · simp only [hf, if_neg hw, List.lookup_nil]
      cases computeRateScaled e.rarityRatesScaled pool item <;>
        simp [Except.map]

theorem dropRate_flat {e : Engine} (hm : e.mode = .flatRate) (name : String) :
    dropRate e name = .ok (.num ((e.flatRateMap.lookup name).getD 0)) := by
  unfold dropRate getItemDropRate
  rw [hm]

/-! ## Claim C2 -/

/-- **C2 amended.** For every validly constructed weighted-mode engine (the
data model requires item names to be unique across pools) and every
configured item: a weight-0 item yields exactly `0`; when the item's pool has
a total weight that rounds to a *nonzero* scaled integer, every value
returned by `getItemDropRate` is a finite number in `[0, 1]`; but when the
total pool weight rounds to scaled `0` — reachable, since positive weights
summing to under `5·10^-7` pass every validation check — a nonzero-weight
item yields `Math.round((0 * SCALE) / 0) = NaN`, which is not in `[0, 1]`. -/
theorem c2_drop_rate_amended {rates : List (String × ℚ)}
    {pools : List RarityInput} {e : Engine}
    (he : mkEngine (.weighted rates pools) = .ok e)
    (hnodup : (allItemNames pools).Nodup)
    {pool : RarityInput} {item : GachaItem}
    (hp : pool ∈ pools) (hi : item ∈ pool.items) :
    (item.weight = 0 → dropRate e item.name = .ok (.num 0)) ∧
    (round ((pool.items.map GachaItem.weight).sum * (SCALE : ℚ)) ≠ 0 →
      ∀ v, dropRate e item.name = .ok v →
        ∃ q : ℚ, v = .num q ∧ 0 ≤ q ∧ q ≤ 1) ∧
    (item.weight ≠ 0 →
      round ((pool.items.map GachaItem.weight).sum * (SCALE : ℚ)) = 0 →
      dropRate e item.name = .ok .nan) := by
  obtain ⟨hr, hv, rfl⟩ := mkEngine_weighted_eq_ok.mp he
  obtain ⟨hsome, hsum, hpools⟩ := validateConfig_ok_iff.mp hv
  have hfind := findItem_eq_some_of_nodup pools hnodup hp hi rfl
  have hred := dropRate_weighted
    (e := ⟨.weighted, pools, scaledOf rates, []⟩) rfl item.name
  rw [hfind] at hred
  dsimp only at hred
  have hall := (checkPool_ok_iff.mp (hpools pool hp)).2.2.1
  refine ⟨fun hw => ?_, fun htw v hv' => ?_, fun hw htw0 => ?_⟩
  · rw [hred, if_pos hw]
  · by_cases hw : item.weight = 0
    · rw [hred, if_pos hw] at hv'
      simp only [Except.ok.injEq] at hv'
      exact ⟨0, hv'.symm, le_refl 0, by norm_num⟩
    · rw [hred, if_neg hw] at hv'
      cases hc : computeRateScaled (scaledOf rates) pool item with
      | error er =>
        rw [hc] at hv'
        cases hv'
      | ok s =>
        rw [hc] at hv'
        simp only [Except.map, Except.ok.injEq] at hv'
        subst hv'
        obtain ⟨b, hb⟩ := Option.isSome_iff_exists.mp (hsome pool hp)
        obtain ⟨hb0, hb1⟩ := base_bounds hr hb
        rcases computeRateScaled_ok_inv hb hb0 hb1 hi hall hc with
          ⟨h0, -⟩ | ⟨-, k, rfl, hk0, hk1⟩
        · exact absurd h0 htw
        · refine ⟨fromScaled k, rfl, ?_, ?_⟩
          · unfold fromScaled
            exact div_nonneg (by exact_mod_cast hk0) SCALE_posQ.le
          · unfold fromScaled
            rw [div_le_one SCALE_posQ]
            exact_mod_cast hk1
  · rw [hred, if_neg hw, computeRateScaled_nan hi hall htw0]
    rfl

theorem c2_witness :
    ((GachaItem.weight ⟨"X", (1 : ℚ)/10000000, false⟩ = 0 →
      dropRate ⟨.weighted, [⟨"r", [⟨"X", (1 : ℚ)/10000000, false⟩,
          ⟨"Y", 1/10000000, false⟩]⟩], scaledOf [("r", 1)], []⟩
        (GachaItem.name ⟨"X", (1 : ℚ)/10000000, false⟩) = .ok (.num 0)) ∧
    (round (((RarityInput.items ⟨"r", [⟨"X", (1 : ℚ)/10000000, false⟩,
          ⟨"Y", 1/10000000, false⟩]⟩).map GachaItem.weight).sum *
        (SCALE : ℚ)) ≠ 0 →
      ∀ v, dropRate ⟨.weighted, [⟨"r", [⟨"X", (1 : ℚ)/10000000, false⟩,
          ⟨"Y", 1/10000000, false⟩]⟩], scaledOf [("r", 1)], []⟩
        (GachaItem.name ⟨"X", (1 : ℚ)/10000000, false⟩) = .ok v →
        ∃ q : ℚ, v = .num q ∧ 0 ≤ q ∧ q ≤ 1) ∧
    (GachaItem.weight ⟨"X", (1 : ℚ)/10000000, false⟩ ≠ 0 →
      round (((RarityInput.items ⟨"r", [⟨"X", (1 : ℚ)/10000000, false⟩,
          ⟨"Y", 1/10000000, false⟩]⟩).map GachaItem.weight).sum *
        (SCALE : ℚ)) = 0 →
      dropRate ⟨.weighted, [⟨"r", [⟨"X", (1 : ℚ)/10000000, false⟩,
          ⟨"Y", 1/10000000, false⟩]⟩], scaledOf [("r", 1)], []⟩
        (GachaItem.name ⟨"X", (1 : ℚ)/10000000, false⟩) = .ok .nan)) := by
  refine @c2_drop_rate_amended [("r", 1)]
    [⟨"r", [⟨"X", (1 : ℚ)/10000000, false⟩, ⟨"Y", 1/10000000, false⟩]⟩]
    ⟨.weighted, [⟨"r", [⟨"X", (1 : ℚ)/10000000, false⟩,
      ⟨"Y", 1/10000000, false⟩]⟩], scaledOf [("r", 1)], []⟩ ?he ?nodup
    ⟨"r", [⟨"X", (1 : ℚ)/10000000, false⟩, ⟨"Y", 1/10000000, false⟩]⟩
    ⟨"X", (1 : ℚ)/10000000, false⟩ (List.mem_singleton.mpr rfl)
    (List.mem_cons_self _ _)
  case he =>
    refine mkEngine_weighted_eq_ok.mpr ⟨?_, ?_, rfl⟩
    · intro q hq
      simp only [List.mem_singleton] at hq
      subst hq
      norm_num
    · refine validateConfig_ok_iff.mpr ⟨?_, by norm_num, ?_⟩
      · intro p hp
        simp only [List.mem_singleton] at hp
        subst hp
        simp [scaledOf, List.lookup]
      · intro p hp
        simp only [List.mem_singleton] at hp
        subst hp
        rw [checkPool_ok_iff]
        refine ⟨by simp, by norm_num, ?_, ?_⟩
        · intro i hi
          rcases List.mem_cons.mp hi with rfl | hi'
          · norm_num
          · simp only [List.mem_singleton] at hi'
            subst hi'
            norm_num
        · exact ⟨⟨"X", (1 : ℚ)/10000000, false⟩, by simp, by norm_num⟩
  case nodup => simp [allItemNames]

/-- **C2 counterexample.** A weighted configuration that passes every
validation check — two items of positive weight `10^-7` in one pool, tier
rate 1 — but whose total pool weight `2·10^-7` rounds to scaled `0`:
`getItemDropRate` computes `Math.round((0 * SCALE) / 0) = NaN`, which is no
rational number at all, let alone one in `[0, 1]`.  This refutes the claim
that every returned value lies in `[0, 1]`. -/
theorem c2_counterexample :
    (mkEngine (.weighted [("r", 1)]
        [⟨"r", [⟨"X", (1 : ℚ)/10000000, false⟩,
          ⟨"Y", 1/10000000, false⟩]⟩])).map
      (fun e => dropRate e "X") = .ok (.ok .nan) ∧
    ∀ q : ℚ, JsNum.nan ≠ .num q := by
  constructor
  · have he : mkEngine (.weighted [("r", 1)]
        [⟨"r", [⟨"X", (1 : ℚ)/10000000, false⟩,
          ⟨"Y", 1/10000000, false⟩]⟩]) =
        .ok ⟨.weighted, [⟨"r", [⟨"X", (1 : ℚ)/10000000, false⟩,
          ⟨"Y", 1/10000000, false⟩]⟩], scaledOf [("r", 1)], []⟩ := by
      refine mkEngine_weighted_eq_ok.mpr ⟨?_, ?_, rfl⟩
      · intro q hq
        simp only [List.mem_singleton] at hq
        subst hq
        norm_num
      · refine validateConfig_ok_iff.mpr ⟨?_, by norm_num, ?_⟩
        · intro p hp
          simp only [List.mem_singleton] at hp
          subst hp
          simp [scaledOf, List.lookup]
        · intro p hp
          simp only [List.mem_singleton] at hp
          subst hp
          rw [checkPool_ok_iff]
          refine ⟨by simp, by norm_num, ?_, ?_⟩
          · intro i hi
            rcases List.mem_cons.mp hi with rfl | hi'
            · norm_num
            · simp only [List.mem_singleton] at hi'
              subst hi'
              norm_num
          · exact ⟨⟨"X", (1 : ℚ)/10000000, false⟩, by simp, by norm_num⟩
    rw [he]
    simp only [Except.map]
    have hfind : findItem [⟨"r", [⟨"X", (1 : ℚ)/10000000, false⟩,
        ⟨"Y", 1/10000000, false⟩]⟩] "X" =
        some (⟨"r", [⟨"X", (1 : ℚ)/10000000, false⟩,
          ⟨"Y", 1/10000000, false⟩]⟩, ⟨"X", (1 : ℚ)/10000000, false⟩) := by
      simp [findItem, List.find?]
    have htw0 : round ((([⟨"X", (1 : ℚ)/10000000, false⟩,
        ⟨"Y", 1/10000000, false⟩].map GachaItem.weight).sum) *
        ((SCALE : ℤ) : ℚ)) = 0 := by
      have harg : (([⟨"X", (1 : ℚ)/10000000, false⟩,
          ⟨"Y", 1/10000000, false⟩].map GachaItem.weight).sum) *
          ((SCALE : ℤ) : ℚ) = 1/5 := by
        unfold SCALE
        norm_num
      rw [harg]
      exact round_eq_zero_of (by norm_num) (by norm_num)
    have hred := dropRate_weighted
      (e := ⟨.weighted, [⟨"r", [⟨"X", (1 : ℚ)/10000000, false⟩,
        ⟨"Y", 1/10000000, false⟩]⟩], scaledOf [("r", 1)], []⟩) rfl "X"
    rw [hfind] at hred
    dsimp only at hred
    have hnanc : computeRateScaled (scaledOf [("r", 1)])
        ⟨"r", [⟨"X", (1 : ℚ)/10000000, false⟩, ⟨"Y", 1/10000000, false⟩]⟩
        ⟨"X", (1 : ℚ)/10000000, false⟩ = .ok .nan := by
      refine @computeRateScaled_nan (scaledOf [("r", 1)])
        ⟨"r", [⟨"X", (1 : ℚ)/10000000, false⟩, ⟨"Y", 1/10000000, false⟩]⟩
        ⟨"X", (1 : ℚ)/10000000, false⟩ (List.mem_cons_self _ _) ?_ htw0
      intro i hi
      rcases List.mem_cons.mp hi with rfl | hi'
      · norm_num
      · simp only [List.mem_singleton] at hi'
        subst hi'
        norm_num
    rw [if_neg (by norm_num), hnanc] at hred
    rw [hred]
    rfl
  · intro q h
    cases h

/-! ## Claim C3 -/

theorem lookup_eq_none {β : Type} {l : List (String × β)} {k : String}
    (h : k ∉ l.map Prod.fst) : l.lookup k = none := by
  induction l with
  | nil => rfl
  | cons q rest ih =>
    obtain ⟨a, b⟩ := q
    simp only [List.map_cons, List.mem_cons] at h
    push_neg at h
    have hbeq : (k == a) = false := beq_eq_false_iff_ne.mpr h.1
    rw [List.lookup_cons, hbeq]
    exact ih h.2

theorem flatInsert_keys {m : List (String × ℚ)} {k a : String} {v : ℚ}
    (h : a ∈ (flatInsert m k v).map Prod.fst) :
    a ∈ m.map Prod.fst ∨ a = k := by
  unfold flatInsert at h
  split_ifs at h with hex
  · obtain ⟨q, hq, rfl⟩ := List.mem_map.mp h
    obtain ⟨p, hp, rfl⟩ := List.mem_map.mp hq
    by_cases hpk : p.1 = k
    · right
      simp [hpk]
    · left
      simp only [if_neg hpk]
      exact List.mem_map_of_mem Prod.fst hp
  · simp only [List.map_append, List.mem_append] at h
    rcases h with h | h
    · exact Or.inl h
    · right
      simpa using h

theorem buildFlatMap_keys (items : List GachaItem) :
    ∀ {m0 m}, buildFlatMap items m0 = .ok m →
    ∀ k, k ∈ m.map Prod.fst →
      k ∈ m0.map Prod.fst ∨ k ∈ items.map GachaItem.name := by
  induction items with
  | nil =>
    intro m0 m h k hk
    simp only [buildFlatMap, Except.ok.injEq] at h
    subst h
    exact Or.inl hk
  | cons i rest ih =>
    intro m0 m h k hk
    by_cases hw : i.weight < 0
    · simp only [buildFlatMap, if_pos hw] at h
      cases h
    · simp only [buildFlatMap, if_neg hw] at h
      rcases ih h k hk with hin | hin
      · rcases flatInsert_keys hin with hin' | hin'
        · exact Or.inl hin'
        · right
          simp [hin']
      · right
        simp [hin]

theorem mkEngine_flat_ok_inv {pools : List RarityInput} {e : Engine}
    (h : mkEngine (.flatRate pools) = .ok e) :
    ∃ m, buildFlatMap (pools.flatMap RarityInput.items) [] = .ok m ∧
      e = ⟨.flatRate, [], [], m⟩ := by
  simp only [mkEngine] at h
  cases hb : buildFlatMap (pools.flatMap RarityInput.items) [] with
  | error er =>
    rw [hb] at h
    cases h
  | ok m =>
    rw [hb] at h
    simp only [Bind.bind, Except.bind] at h
    split_ifs at h
    try cases h
    exact ⟨m, rfl, rfl⟩

/-- The configured item names of a configuration (both modes). -/
def configNames : GachaEngineConfig → List String
  | .weighted _ pools => allItemNames pools
  | .flatRate pools => allItemNames pools

/-- **C3.** Querying `getItemDropRate` with a name that is configured in no
pool raises `ItemNotFoundError` in weighted mode and returns probability 0
(no error) in flat mode; in both modes the cache — the engine's only mutable
state, which never holds unknown names — is returned unchanged, so every
later query observes an unchanged engine. -/
theorem c3_unknown_name {cfg : GachaEngineConfig} {e : Engine}
    (he : mkEngine cfg = .ok e) {name : String}
    (hunk : name ∉ configNames cfg) (cache : Cache)
    (hcache : cache.lookup name = none) :
    (e.mode = .weighted →
      getItemDropRate e cache name = (.error .itemNotFound, cache)) ∧
    (e.mode = .flatRate →
      getItemDropRate e cache name = (.ok (.num 0), cache)) := by
  cases cfg with
  | weighted rates pools =>
    obtain ⟨-, -, rfl⟩ := mkEngine_weighted_eq_ok.mp he
    refine ⟨fun _ => ?_, fun hmode => by cases hmode⟩
    have hfind : findItem pools name = none :=
      findItem_eq_none (by simpa [configNames] using hunk)
    unfold getItemDropRate
    simp only [hcache, hfind]
  | flatRate pools =>
    obtain ⟨m, hb, rfl⟩ := mkEngine_flat_ok_inv he
    refine ⟨fun hmode => (by cases hmode), fun _ => ?_⟩
    have hkeys : name ∉ m.map Prod.fst := by
      intro hk
      rcases buildFlatMap_keys _ hb name hk with h0 | h0
      · simp at h0
      · exact hunk (by simpa [configNames, allItemNames_eq] using h0)
    unfold getItemDropRate
    simp only [lookup_eq_none hkeys, Option.getD_none]

theorem c3_witness :
    ((⟨.weighted, [⟨"r", [⟨"A", 1, false⟩]⟩], scaledOf [("r", 1)], []⟩ :
        Engine).mode = .weighted →
      getItemDropRate ⟨.weighted, [⟨"r", [⟨"A", 1, false⟩]⟩],
        scaledOf [("r", 1)], []⟩ [] "Nope" = (.error .itemNotFound, [])) ∧
    ((⟨.weighted, [⟨"r", [⟨"A", 1, false⟩]⟩], scaledOf [("r", 1)], []⟩ :
        Engine).mode = .flatRate →
      getItemDropRate ⟨.weighted, [⟨"r", [⟨"A", 1, false⟩]⟩],
        scaledOf [("r", 1)], []⟩ [] "Nope" = (.ok (.num 0), [])) := by
  refine @c3_unknown_name (.weighted [("r", 1)] [⟨"r", [⟨"A", 1, false⟩]⟩])
    _ ?he "Nope" ?unk [] rfl
  case he =>
    refine mkEngine_weighted_eq_ok.mpr ⟨?_, ?_, rfl⟩
    · intro q hq
      simp only [List.mem_singleton] at hq
      subst hq
      norm_num
    · refine validateConfig_ok_iff.mpr ⟨?_, by norm_num, ?_⟩
      · intro p hp
        simp only [List.mem_singleton] at hp
        subst hp
        simp [scaledOf, List.lookup]
      · intro p hp
        simp only [List.mem_singleton] at hp
        subst hp
        rw [checkPool_ok_iff]
        refine ⟨by simp, by norm_num, ?_, ?_⟩
        · intro i hi
          simp only [List.mem_singleton] at hi
          subst hi
          norm_num
        · exact ⟨⟨"A", 1, false⟩, by simp, by norm_num⟩
  case unk => simp [configNames, allItemNames]

/-! ## Claims C10 and C4 -/

/-- **C10.** `getRollsForTargetProbability` checks its target edge cases
before looking up the item, so for any name — including names configured in
no pool, on engines of either mode — a call with `target ≤ 0` returns 0 and
a call with `target ≥ 1` returns 1, without raising `ItemNotFoundError`. -/
theorem c10_target_edges_before_lookup (e : Engine) (name : String) (t : ℚ) :
    (t ≤ 0 → getRollsForTargetProbability e name t = .ok (.num 0)) ∧
    (t ≥ 1 → getRollsForTargetProbability e name t = .ok (.num 1)) := by
  constructor
  · intro ht
    unfold getRollsForTargetProbability
    rw [if_pos ht]
  · intro ht
    have h0 : ¬ t ≤ 0 := by linarith
    unfold getRollsForTargetProbability
    rw [if_neg h0, if_pos ht]

theorem c10_witness :
    getRollsForTargetProbability
      ⟨.weighted, [⟨"r", [⟨"A", 1, false⟩]⟩], scaledOf [("r", 1)], []⟩
      "ghost" 0 = .ok (.num 0) ∧
    getRollsForTargetProbability
      ⟨.weighted, [⟨"r", [⟨"A", 1, false⟩]⟩], scaledOf [("r", 1)], []⟩
      "ghost" 2 = .ok (.num 1) :=
  ⟨(c10_target_edges_before_lookup _ "ghost" 0).1 (by norm_num),
   (c10_target_edges_before_lookup _ "ghost" 2).2 (by norm_num)⟩

theorem mkEngineV1_eq_ok {rates : List (String × ℚ)}
    {pools : List RarityInput} {e : V1.Engine} :
    V1.mkEngine rates pools = .ok e ↔
      (∀ q ∈ rates, 0 ≤ q.2 ∧ q.2 ≤ 1) ∧
      validateConfig (scaledOf rates) rates pools = .ok () ∧
      e = ⟨pools, scaledOf rates⟩ := by
  constructor
  · intro h
    unfold V1.mkEngine at h
    cases hs : scaleRarityRates rates with
    | error er =>
      rw [hs] at h
      simp [Bind.bind, Except.bind] at h
    | ok scaled =>
      obtain ⟨hr, rfl⟩ := scaleRarityRates_ok hs
      rw [hs] at h
      simp only [Bind.bind, Except.bind] at h
      cases hv : validateConfig (scaledOf rates) rates pools with
      | error er =>
        rw [hv] at h
        cases h
      | ok u =>
        cases u
        rw [hv] at h
        simp only [Except.ok.injEq] at h
        exact ⟨hr, rfl, h.symm⟩
  · rintro ⟨hr, hv, rfl⟩
    unfold V1.mkEngine
    rw [scaleRarityRates_eq_ok_of hr]
    simp only [Bind.bind, Except.bind]
    rw [hv]

theorem fromScaled_sub (s : ℤ) :
    fromScaled (SCALE - s) = 1 - fromScaled s := by
  unfold fromScaled SCALE
  push_cast
  ring

/-- **C6 amended.** (`src/gacha-engine.ts`) When the configured item's
stored scaled rate is a finite integer `s` (effective drop rate
`p = s / 10^6`), `getCumulativeProbabilityForItem` behaves as claimed:
`p = 0` yields exactly 0, `p ≥ 1` yields exactly 1, otherwise
`1 - (1 - p)^rolls` clamped to `[0, 1]` by `Math.min(1, Math.max(0, ·))`,
and every returned value is a rational in `[0, 1]`.  But when the stored
scaled rate is `NaN` — reachable from a validly constructed engine whose
total pool weight rounds to scaled 0 — the clamp does *not* absorb it:
`Math.min(1, Math.max(0, NaN)) = NaN`, so every call with `rolls ≠ 0`
returns `NaN`, outside `[0, 1]`. -/
theorem c6_cumulative_amended (e : V1.Engine) (name : String) (r : ScaledRate)
    (hs : V1.getItemDropRateScaled e name = .ok r) (rolls : ℤ) :
    (∀ s : ℤ, r = .int s →
      (s = 0 →
        V1.getCumulativeProbabilityForItem e name rolls = .ok (.num 0)) ∧
      (s ≥ SCALE →
        V1.getCumulativeProbabilityForItem e name rolls = .ok (.num 1)) ∧
      (s ≠ 0 → ¬ s ≥ SCALE →
        V1.getCumulativeProbabilityForItem e name rolls =
          .ok (.num (min 1 (max 0 (1 - (1 - fromScaled s) ^ rolls))))) ∧
      (∀ v, V1.getCumulativeProbabilityForItem e name rolls = .ok v →
        ∃ q : ℚ, v = .num q ∧ 0 ≤ q ∧ q ≤ 1)) ∧
    (r = .nan → rolls ≠ 0 →
      V1.getCumulativeProbabilityForItem e name rolls = .ok .nan) := by
  constructor
  · rintro s rfl
    have hred : V1.getCumulativeProbabilityForItem e name rolls =
        (if s = 0 then .ok (.num 0)
         else if s ≥ SCALE then .ok (.num 1)
         else .ok (.num (min 1 (max 0 (1 - fromScaled (SCALE - s) ^ rolls))))) := by
      unfold V1.getCumulativeProbabilityForItem
      simp only [hs, Bind.bind, Except.bind]
    refine ⟨fun h0 => ?_, fun h1 => ?_, fun h0 h1 => ?_, fun v hv => ?_⟩
    · rw [hred, if_pos h0]
    · rw [hred]
      by_cases h0 : s = 0
      · subst h0
        rw [if_pos rfl]
        exfalso
        unfold SCALE at h1
        omega
      · rw [if_neg h0, if_pos h1]
    · rw [hred, if_neg h0, if_neg h1, fromScaled_sub]
    · rw [hred] at hv
      split_ifs at hv with h0 h1
      · simp only [Except.ok.injEq] at hv
        exact ⟨0, hv.symm, le_refl 0, by norm_num⟩
      · simp only [Except.ok.injEq] at hv
        exact ⟨1, hv.symm, by norm_num, le_refl 1⟩
      · simp only [Except.ok.injEq] at hv
        refine ⟨min 1 (max 0 (1 - fromScaled (SCALE - s) ^ rolls)),
          hv.symm, ?_, ?_⟩
        · exact le_min (by norm_num) (le_max_left 0 _)
        · exact min_le_left 1 _
  · rintro rfl hne
    unfold V1.getCumulativeProbabilityForItem
    simp only [hs, Bind.bind, Except.bind]
    rw [if_neg hne]

theorem c6_witness :
    (∀ s : ℤ, ScaledRate.int 500000 = .int s →
      (s = 0 → V1.getCumulativeProbabilityForItem
        ⟨[⟨"r", [⟨"A", 1, false⟩, ⟨"B", 1, false⟩]⟩], [("r", 1000000)]⟩
        "A" 2 = .ok (.num 0)) ∧
      (s ≥ SCALE → V1.getCumulativeProbabilityForItem
        ⟨[⟨"r", [⟨"A", 1, false⟩, ⟨"B", 1, false⟩]⟩], [("r", 1000000)]⟩
        "A" 2 = .ok (.num 1)) ∧
      (s ≠ 0 → ¬ s ≥ SCALE →
        V1.getCumulativeProbabilityForItem
          ⟨[⟨"r", [⟨"A", 1, false⟩, ⟨"B", 1, false⟩]⟩], [("r", 1000000)]⟩
          "A" 2 =
          .ok (.num (min 1 (max 0 (1 - (1 - fromScaled s) ^ (2 : ℤ)))))) ∧
      (∀ v, V1.getCumulativeProbabilityForItem
          ⟨[⟨"r", [⟨"A", 1, false⟩, ⟨"B", 1, false⟩]⟩], [("r", 1000000)]⟩
          "A" 2 = .ok v → ∃ q : ℚ, v = .num q ∧ 0 ≤ q ∧ q ≤ 1)) ∧
    (ScaledRate.int 500000 = .nan → (2 : ℤ) ≠ 0 →
      V1.getCumulativeProbabilityForItem
        ⟨[⟨"r", [⟨"A", 1, false⟩, ⟨"B", 1, false⟩]⟩], [("r", 1000000)]⟩
        "A" 2 = .ok .nan) := by
  refine c6_cumulative_amended _ "A" (.int 500000) ?_ 2
  have h1 : (List.find? (fun i => i.name == "A")
      [(⟨"A", 1, false⟩ : GachaItem), ⟨"B", 1, false⟩]) =
      some ⟨"A", 1, false⟩ := by
    simp [List.find?]
  have hsum : (List.map GachaItem.weight
      [(⟨"A", 1, false⟩ : GachaItem), ⟨"B", 1, false⟩]).sum = (2 : ℚ) := by
    norm_num
  have htos1 : toScaled (1 : ℚ) = .ok 1000000 := by
    rw [toScaled_eq_ok_of_le_one (by norm_num)]
    have : (1 : ℚ) * ((SCALE : ℤ) : ℚ) = ((1000000 : ℤ) : ℚ) := by
      unfold SCALE
      norm_num
    rw [this, round_intCast]
  have htos2 : toScaled (2 : ℚ) = .ok 2000000 := by
    rw [toScaled_eq_ok (by rw [MAX_SAFE_SCALE_eq]; unfold SCALE; norm_num)]
    have : (2 : ℚ) * ((SCALE : ℤ) : ℚ) = ((2000000 : ℤ) : ℚ) := by
      unfold SCALE
      norm_num
    rw [this, round_intCast]
  unfold V1.getItemDropRateScaled findItem computeRateScaled
  rw [h1]
  dsimp only
  rw [if_neg (by norm_num), hsum, htos1, htos2]
  simp only [Bind.bind, Except.bind, List.lookup_cons, beq_self_eq_true,
    cond_true, Option.getD_some, Except.ok.injEq]
  have harg1 : (((1000000 * 1000000 : ℤ) : ℚ) / ((SCALE : ℤ) : ℚ)) =
      ((1000000 : ℤ) : ℚ) := by
    unfold SCALE
    norm_num
  rw [harg1, round_intCast]
  unfold roundDivJs
  rw [if_neg (by norm_num)]
  have harg2 : (((1000000 * SCALE : ℤ) : ℚ)) / ((2000000 : ℤ) : ℚ) =
      ((500000 : ℤ) : ℚ) := by
    unfold SCALE
    norm_num
  rw [harg2, round_intCast]

/-- **C6 counterexample.** (`src/gacha-engine.ts`) A weighted configuration
that passes every validation check — two items of positive weight `10^-7`,
tier rate 1 — produces the stored scaled rate `NaN`, and
`getCumulativeProbabilityForItem` at one roll returns `NaN`: the
`Math.min(1, Math.max(0, ·))` clamp does not absorb it, so the returned
value is no rational in `[0, 1]`.  This refutes the claim that every result
lies in `[0, 1]`. -/
theorem c6_counterexample :
    (V1.mkEngine [("r", 1)]
        [⟨"r", [⟨"X", (1 : ℚ)/10000000, false⟩,
          ⟨"Y", 1/10000000, false⟩]⟩]).map
      (fun e => V1.getCumulativeProbabilityForItem e "X" 1) =
      .ok (.ok .nan) ∧
    ∀ q : ℚ, JsNum.nan ≠ .num q := by
  constructor
  · have he : V1.mkEngine [("r", 1)]
        [⟨"r", [⟨"X", (1 : ℚ)/10000000, false⟩,
          ⟨"Y", 1/10000000, false⟩]⟩] =
        .ok ⟨[⟨"r", [⟨"X", (1 : ℚ)/10000000, false⟩,
          ⟨"Y", 1/10000000, false⟩]⟩], scaledOf [("r", 1)]⟩ := by
      refine mkEngineV1_eq_ok.mpr ⟨?_, ?_, rfl⟩
      · intro q hq
        simp only [List.mem_singleton] at hq
        subst hq
        norm_num
      · refine validateConfig_ok_iff.mpr ⟨?_, by norm_num, ?_⟩
        · intro p hp
          simp only [List.mem_singleton] at hp
          subst hp
          simp [scaledOf, List.lookup]
        · intro p hp
          simp only [List.mem_singleton] at hp
          subst hp
          rw [checkPool_ok_iff]
          refine ⟨by simp, by norm_num, ?_, ?_⟩
          · intro i hi
            rcases List.mem_cons.mp hi with rfl | hi'
            · norm_num
            · simp only [List.mem_singleton] at hi'
              subst hi'
              norm_num
          · exact ⟨⟨"X", (1 : ℚ)/10000000, false⟩, by simp, by norm_num⟩
    rw [he]
    simp only [Except.map]
    have htw0 : round ((([⟨"X", (1 : ℚ)/10000000, false⟩,
        ⟨"Y", 1/10000000, false⟩].map GachaItem.weight).sum) *
        ((SCALE : ℤ) : ℚ)) = 0 := by
      have harg : (([⟨"X", (1 : ℚ)/10000000, false⟩,
          ⟨"Y", 1/10000000, false⟩].map GachaItem.weight).sum) *
          ((SCALE : ℤ) : ℚ) = 1/5 := by
        unfold SCALE
        norm_num
      rw [harg]
      exact round_eq_zero_of (by norm_num) (by norm_num)
    have hfind : findItem [⟨"r", [⟨"X", (1 : ℚ)/10000000, false⟩,
        ⟨"Y", 1/10000000, false⟩]⟩] "X" =
        some (⟨"r", [⟨"X", (1 : ℚ)/10000000, false⟩,
          ⟨"Y", 1/10000000, false⟩]⟩, ⟨"X", (1 : ℚ)/10000000, false⟩) := by
      simp [findItem, List.find?]
    have hnanc : computeRateScaled (scaledOf [("r", 1)])
        ⟨"r", [⟨"X", (1 : ℚ)/10000000, false⟩, ⟨"Y", 1/10000000, false⟩]⟩
        ⟨"X", (1 : ℚ)/10000000, false⟩ = .ok .nan := by
      refine @computeRateScaled_nan (scaledOf [("r", 1)])
        ⟨"r", [⟨"X", (1 : ℚ)/10000000, false⟩, ⟨"Y", 1/10000000, false⟩]⟩
        ⟨"X", (1 : ℚ)/10000000, false⟩ (List.mem_cons_self _ _) ?_ htw0
      intro i hi
      rcases List.mem_cons.mp hi with rfl | hi'
      · norm_num
      · simp only [List.mem_singleton] at hi'
        subst hi'
        norm_num
    have hnan : V1.getItemDropRateScaled
        ⟨[⟨"r", [⟨"X", (1 : ℚ)/10000000, false⟩,
          ⟨"Y", 1/10000000, false⟩]⟩], scaledOf [("r", 1)]⟩ "X" =
        .ok .nan := by
      unfold V1.getItemDropRateScaled
      dsimp only
      rw [hfind]
      dsimp only
      rw [if_neg (by norm_num), hnanc]
    unfold V1.getCumulativeProbabilityForItem
    simp only [hnan, Bind.bind, Except.bind]
    rw [if_neg (by norm_num)]
  · intro q h
    cases h

/-! ## Claim C9 (V1 engine) -/

/-- **C9 amended.** On the weighted-only engine, `getRarityProbability`
returns the *stored rounded* rate `round(rate * 10^6) / 10^6` — not the
configured rate itself — for every configured tier whose scaled rate is
nonzero, and fails with `TierNotFoundError` exactly when the queried tier is
absent from the table *or* its scaled rate is the JS-falsy integer `0`. -/
theorem c9_rarity_probability_amended {rates : List (String × ℚ)}
    {pools : List RarityInput} {e : V1.Engine}
    (he : V1.mkEngine rates pools = .ok e) (tier : String) :
    (rates.lookup tier = none →
      V1.getRarityProbability e tier = .error .tierNotFound) ∧
    (∀ r, rates.lookup tier = some r →
      (round (r * (SCALE : ℚ)) = 0 →
        V1.getRarityProbability e tier = .error .tierNotFound) ∧
      (round (r * (SCALE : ℚ)) ≠ 0 →
        V1.getRarityProbability e tier =
          .ok (fromScaled (round (r * (SCALE : ℚ)))))) := by
  obtain ⟨-, -, rfl⟩ := mkEngineV1_eq_ok.mp he
  constructor
  · intro hnone
    unfold V1.getRarityProbability
    dsimp only
    rw [lookup_scaledOf, hnone]
    rfl
  · intro r hr
    constructor
    · intro h0
      unfold V1.getRarityProbability
      dsimp only
      rw [lookup_scaledOf, hr]
      simp only [Option.map_some']
      rw [if_pos h0]
    · intro h0
      unfold V1.getRarityProbability
      dsimp only
      rw [lookup_scaledOf, hr]
      simp only [Option.map_some']
      rw [if_neg h0]

theorem c9_witness :
    (([("r", (1 : ℚ)/2), ("z", 1/2)] : List (String × ℚ)).lookup "ghost" =
        none →
      V1.getRarityProbability ⟨[⟨"r", [⟨"A", 1, false⟩]⟩],
        scaledOf [("r", (1 : ℚ)/2), ("z", 1/2)]⟩ "ghost" =
        .error .tierNotFound) ∧
    (∀ r, ([("r", (1 : ℚ)/2), ("z", 1/2)] : List (String × ℚ)).lookup "ghost" =
        some r →
      (round (r * (SCALE : ℚ)) = 0 →
        V1.getRarityProbability ⟨[⟨"r", [⟨"A", 1, false⟩]⟩],
          scaledOf [("r", (1 : ℚ)/2), ("z", 1/2)]⟩ "ghost" =
          .error .tierNotFound) ∧
      (round (r * (SCALE : ℚ)) ≠ 0 →
        V1.getRarityProbability ⟨[⟨"r", [⟨"A", 1, false⟩]⟩],
          scaledOf [("r", (1 : ℚ)/2), ("z", 1/2)]⟩ "ghost" =
          .ok (fromScaled (round (r * (SCALE : ℚ)))))) := by
  refine @c9_rarity_probability_amended [("r", (1 : ℚ)/2), ("z", 1/2)]
    [⟨"r", [⟨"A", 1, false⟩]⟩] _ ?_ "ghost"
  refine mkEngineV1_eq_ok.mpr ⟨?_, ?_, rfl⟩
  · intro q hq
    rcases List.mem_cons.mp hq with rfl | hq'
    · norm_num
    · simp only [List.mem_singleton] at hq'
      subst hq'
      norm_num
  · refine validateConfig_ok_iff.mpr ⟨?_, by norm_num, ?_⟩
    · intro p hp
      simp only [List.mem_singleton] at hp
      subst hp
      simp [scaledOf, List.lookup]
    · intro p hp
      simp only [List.mem_singleton] at hp
      subst hp
      rw [checkPool_ok_iff]
      refine ⟨by simp, by norm_num, ?_, ?_⟩
      · intro i hi
        simp only [List.mem_singleton] at hi
        subst hi
        norm_num
      · exact ⟨⟨"A", 1, false⟩, by simp, by norm_num⟩

/-- **C9 counterexample.** A validly constructed engine with tier `a` of rate
`1/3`: `getRarityProbability` returns `333333/1000000`, which is not the
configured base rate `1/3`. -/
theorem c9_counterexample :
    (V1.mkEngine [("a", (1 : ℚ)/3), ("b", 2/3)]
        [⟨"a", [⟨"X", 1, false⟩]⟩]).map
      (fun e => V1.getRarityProbability e "a") =
      .ok (.ok (333333 / 1000000)) ∧
    (333333 / 1000000 : ℚ) ≠ 1 / 3 := by
  constructor
  · have he : V1.mkEngine [("a", (1 : ℚ)/3), ("b", 2/3)]
        [⟨"a", [⟨"X", 1, false⟩]⟩] =
        .ok ⟨[⟨"a", [⟨"X", 1, false⟩]⟩],
          scaledOf [("a", (1 : ℚ)/3), ("b", 2/3)]⟩ := by
      refine mkEngineV1_eq_ok.mpr ⟨?_, ?_, rfl⟩
      · intro q hq
        rcases List.mem_cons.mp hq with rfl | hq'
        · norm_num
        · simp only [List.mem_singleton] at hq'
          subst hq'
          norm_num
      · refine validateConfig_ok_iff.mpr ⟨?_, by norm_num, ?_⟩
        · intro p hp
          simp only [List.mem_singleton] at hp
          subst hp
          simp [scaledOf, List.lookup]
        · intro p hp
          simp only [List.mem_singleton] at hp
          subst hp
          rw [checkPool_ok_iff]
          refine ⟨by simp, by norm_num, ?_, ?_⟩
          · intro i hi
            simp only [List.mem_singleton] at hi
            subst hi
            norm_num
          · exact ⟨⟨"X", 1, false⟩, by simp, by norm_num⟩
    rw [he]
    simp only [Except.map]
    have hround : round ((1 : ℚ)/3 * ((SCALE : ℤ) : ℚ)) = 333333 := by
      have harg : (1 : ℚ)/3 * ((SCALE : ℤ) : ℚ) = 1000000/3 := by
        unfold SCALE
        norm_num
      rw [harg]
      refine round_eq_of (by norm_num) (by norm_num)
    have hlk : (scaledOf [("a", (1 : ℚ)/3), ("b", 2/3)]).lookup "a" =
        some 333333 := by
      rw [lookup_scaledOf]
      have : (([("a", (1 : ℚ)/3), ("b", 2/3)] :
          List (String × ℚ)).lookup "a") = some (1/3) := by
        simp [List.lookup]
      rw [this, Option.map_some', hround]
    unfold V1.getRarityProbability
    dsimp only
    rw [hlk]
    dsimp only
    rw [if_neg (by norm_num)]
    unfold fromScaled SCALE
    norm_num
  · norm_num

/-! ## Claim C8 (V1 engine) -/

theorem fromScaled_round_close (r : ℚ) :
    |fromScaled (round (r * (SCALE : ℚ))) - r| ≤ 1 / (2 * (SCALE : ℚ)) := by
  unfold fromScaled
  have hS := SCALE_posQ
  rw [show ((round (r * ((SCALE : ℤ) : ℚ)) : ℤ) : ℚ) / ((SCALE : ℤ) : ℚ) - r =
      (((round (r * ((SCALE : ℤ) : ℚ)) : ℤ) : ℚ) - r * ((SCALE : ℤ) : ℚ)) /
        ((SCALE : ℤ) : ℚ) from by
    field_simp
    ring]
  rw [abs_div, abs_of_pos hS]
  have h1 : |((round (r * ((SCALE : ℤ) : ℚ)) : ℤ) : ℚ) -
      r * ((SCALE : ℤ) : ℚ)| ≤ 1 / 2 := by
    rw [abs_sub_comm]
    exact abs_sub_round _
  calc |((round (r * ((SCALE : ℤ) : ℚ)) : ℤ) : ℚ) - r * ((SCALE : ℤ) : ℚ)| /
        ((SCALE : ℤ) : ℚ)
      ≤ (1 / 2) / ((SCALE : ℤ) : ℚ) := (div_le_div_right hS).mpr h1
    _ = 1 / (2 * ((SCALE : ℤ) : ℚ)) := by rw [div_div]

theorem descaled_sum_close (rates : List (String × ℚ)) :
    |(rates.map (fun q => fromScaled (round (q.2 * (SCALE : ℚ))))).sum -
      (rates.map Prod.snd).sum| ≤
      (rates.length : ℚ) / (2 * (SCALE : ℚ)) := by
  induction rates with
  | nil => simp
  | cons q rest ih =>
    simp only [List.map_cons, List.sum_cons, List.length_cons]
    have h1 := fromScaled_round_close q.2
    have heq : fromScaled (round (q.2 * ((SCALE : ℤ) : ℚ))) +
        (rest.map (fun q => fromScaled (round (q.2 * ((SCALE : ℤ) : ℚ))))).sum -
        (q.2 + (rest.map Prod.snd).sum) =
        (fromScaled (round (q.2 * ((SCALE : ℤ) : ℚ))) - q.2) +
        ((rest.map (fun q => fromScaled (round (q.2 * ((SCALE : ℤ) : ℚ))))).sum -
          (rest.map Prod.snd).sum) := by
      ring
    rw [heq]
    calc |(fromScaled (round (q.2 * ((SCALE : ℤ) : ℚ))) - q.2) +
          ((rest.map (fun q => fromScaled (round (q.2 * ((SCALE : ℤ) : ℚ))))).sum -
            (rest.map Prod.snd).sum)|
        ≤ |fromScaled (round (q.2 * ((SCALE : ℤ) : ℚ))) - q.2| +
          |(rest.map (fun q => fromScaled (round (q.2 * ((SCALE : ℤ) : ℚ))))).sum -
            (rest.map Prod.snd).sum| := abs_add _ _
      _ ≤ 1 / (2 * ((SCALE : ℤ) : ℚ)) +
          (rest.length : ℚ) / (2 * ((SCALE : ℤ) : ℚ)) := add_le_add h1 ih
      _ = ((rest.length : ℚ) + 1) / (2 * ((SCALE : ℤ) : ℚ)) := by ring
    push_cast
    ring_nf
    exact le_refl _

/-- **C8 amended.** For every weighted configuration the `src/gacha-engine.ts`
constructor accepts, the sum of the *de-scaled stored* tier rates (the value
`getRarityProbability` returns for tiers with nonzero scaled rate) lies
within `k/(2·10^6) + 10^-10` of 1, where `k` is the number of configured
tiers — a per-tier half-unit rounding budget, not the claim's `10^-9`. -/
theorem c8_tier_rate_sum_amended {rates : List (String × ℚ)}
    {pools : List RarityInput} {e : V1.Engine}
    (he : V1.mkEngine rates pools = .ok e) :
    |(e.rarityRatesScaled.map (fun q => fromScaled q.2)).sum - 1| ≤
      (rates.length : ℚ) / (2 * (SCALE : ℚ)) + 1 / 10 ^ 10 := by
  obtain ⟨-, hv, rfl⟩ := mkEngineV1_eq_ok.mp he
  obtain ⟨-, hsum, -⟩ := validateConfig_ok_iff.mp hv
  dsimp only
  have hmap : (scaledOf rates).map (fun q => fromScaled q.2) =
      rates.map (fun q => fromScaled (round (q.2 * (SCALE : ℚ)))) := by
    unfold scaledOf
    rw [List.map_map]
    rfl
  rw [hmap]
  calc |(rates.map (fun q => fromScaled (round (q.2 * (SCALE : ℚ))))).sum - 1|
      ≤ |(rates.map (fun q => fromScaled (round (q.2 * (SCALE : ℚ))))).sum -
          (rates.map Prod.snd).sum| + |(rates.map Prod.snd).sum - 1| :=
        abs_sub_le _ _ _
    _ ≤ (rates.length : ℚ) / (2 * (SCALE : ℚ)) + 1 / 10 ^ 10 :=
        add_le_add (descaled_sum_close rates) hsum

theorem c8_witness :
    |((V1.Engine.rarityRatesScaled ⟨[⟨"r", [⟨"A", 1, false⟩]⟩],
        scaledOf [("r", (1 : ℚ)/2), ("z", 1/2)]⟩).map
      (fun q => fromScaled q.2)).sum - 1| ≤
      (([("r", (1 : ℚ)/2), ("z", 1/2)] : List (String × ℚ)).length : ℚ) /
        (2 * (SCALE : ℚ)) + 1 / 10 ^ 10 := by
  refine @c8_tier_rate_sum_amended [("r", (1 : ℚ)/2), ("z", 1/2)]
    [⟨"r", [⟨"A", 1, false⟩]⟩] _ ?_
  refine mkEngineV1_eq_ok.mpr ⟨?_, ?_, rfl⟩
  · intro q hq
    rcases List.mem_cons.mp hq with rfl | hq'
    · norm_num
    · simp only [List.mem_singleton] at hq'
      subst hq'
      norm_num
  · refine validateConfig_ok_iff.mpr ⟨?_, by norm_num, ?_⟩
    · intro p hp
      simp only [List.mem_singleton] at hp
      subst hp
      simp [scaledOf, List.lookup]
    · intro p hp
      simp only [List.mem_singleton] at hp
      subst hp
      rw [checkPool_ok_iff]
      refine ⟨by simp, by norm_num, ?_, ?_⟩
      · intro i hi
        simp only [List.mem_singleton] at hi
        subst hi
        norm_num
      · exact ⟨⟨"A", 1, false⟩, by simp, by norm_num⟩

/-- **C8 counterexample.** A validly constructed configuration with tier
rates `1.4e-6`, `1.4e-6`, `1 - 2.8e-6` (summing to exactly 1): the stored
rates de-scale to `1e-6`, `1e-6`, `0.999997`, whose sum `0.999999` misses 1
by `1e-6`, far outside the claimed `1e-9` tolerance. -/
theorem c8_counterexample :
    (V1.mkEngine [("a", 7/5000000), ("b", 7/5000000), ("c", 4999986/5000000)]
        [⟨"a", [⟨"X", 1, false⟩]⟩]).map (fun e =>
      [V1.getRarityProbability e "a", V1.getRarityProbability e "b",
        V1.getRarityProbability e "c"]) =
      .ok [.ok (1/1000000), .ok (1/1000000), .ok (999997/1000000)] ∧
    ¬ |(1/1000000 + 1/1000000 + 999997/1000000 : ℚ) - 1| ≤ 1 / 10 ^ 9 := by
  constructor
  · have hround1 : round ((7 : ℚ)/5000000 * ((SCALE : ℤ) : ℚ)) = 1 := by
      have harg : (7 : ℚ)/5000000 * ((SCALE : ℤ) : ℚ) = 7/5 := by
        unfold SCALE
        norm_num
      rw [harg]
      exact round_eq_of (by norm_num) (by norm_num)
    have hround3 : round ((4999986 : ℚ)/5000000 * ((SCALE : ℤ) : ℚ)) =
        999997 := by
      have harg : (4999986 : ℚ)/5000000 * ((SCALE : ℤ) : ℚ) = 4999986/5 := by
        unfold SCALE
        norm_num
      rw [harg]
      exact round_eq_of (by norm_num) (by norm_num)
    have he : V1.mkEngine
        [("a", 7/5000000), ("b", 7/5000000), ("c", 4999986/5000000)]
        [⟨"a", [⟨"X", 1, false⟩]⟩] =
        .ok ⟨[⟨"a", [⟨"X", 1, false⟩]⟩],
          scaledOf [("a", 7/5000000), ("b", 7/5000000),
            ("c", 4999986/5000000)]⟩ := by
      refine mkEngineV1_eq_ok.mpr ⟨?_, ?_, rfl⟩
      · intro q hq
        rcases List.mem_cons.mp hq with rfl | hq'
        · norm_num
        rcases List.mem_cons.mp hq' with rfl | hq''
        · norm_num
        simp only [List.mem_singleton] at hq''
        subst hq''
        norm_num
      · refine validateConfig_ok_iff.mpr ⟨?_, by norm_num, ?_⟩
        · intro p hp
          simp only [List.mem_singleton] at hp
          subst hp
          simp [scaledOf, List.lookup]
        · intro p hp
          simp only [List.mem_singleton] at hp
          subst hp
          rw [checkPool_ok_iff]
          refine ⟨by simp, by norm_num, ?_, ?_⟩
          · intro i hi
            simp only [List.mem_singleton] at hi
            subst hi
            norm_num
          · exact ⟨⟨"X", 1, false⟩, by simp, by norm_num⟩
    rw [he]
    simp only [Except.map]
    have hget : ∀ (k : String) (v : ℚ) (s : ℤ),
        (scaledOf [("a", 7/5000000), ("b", 7/5000000),
          ("c", 4999986/5000000)]).lookup k = some s → s ≠ 0 →
        fromScaled s = v →
        V1.getRarityProbability ⟨[⟨"a", [⟨"X", 1, false⟩]⟩],
          scaledOf [("a", 7/5000000), ("b", 7/5000000),
            ("c", 4999986/5000000)]⟩ k = .ok v := by
      intro k v s hs hne hv
      unfold V1.getRarityProbability
      dsimp only
      rw [hs]
      dsimp only
      rw [if_neg hne, hv]
    have hlka : (scaledOf [("a", (7 : ℚ)/5000000), ("b", 7/5000000),
        ("c", 4999986/5000000)]).lookup "a" = some 1 := by
      rw [lookup_scaledOf]
      have : (([("a", (7 : ℚ)/5000000), ("b", 7/5000000),
          ("c", 4999986/5000000)] : List (String × ℚ)).lookup "a") =
          some (7/5000000) := by
        simp [List.lookup]
      rw [this, Option.map_some', hround1]
    have hlkb : (scaledOf [("a", (7 : ℚ)/5000000), ("b", 7/5000000),
        ("c", 4999986/5000000)]).lookup "b" = some 1 := by
      rw [lookup_scaledOf]
      have : (([("a", (7 : ℚ)/5000000), ("b", 7/5000000),
          ("c", 4999986/5000000)] : List (String × ℚ)).lookup "b") =
          some (7/5000000) := by
        simp [List.lookup]
      rw [this, Option.map_some', hround1]
    have hlkc : (scaledOf [("a", (7 : ℚ)/5000000), ("b", 7/5000000),
        ("c", 4999986/5000000)]).lookup "c" = some 999997 := by
      rw [lookup_scaledOf]
      have : (([("a", (7 : ℚ)/5000000), ("b", 7/5000000),
          ("c", 4999986/5000000)] : List (String × ℚ)).lookup "c") =
          some (4999986/5000000) := by
        simp [List.lookup]
      rw [this, Option.map_some', hround3]
    rw [hget "a" (1/1000000) 1 hlka (by norm_num)
        (by unfold fromScaled SCALE; norm_num),
      hget "b" (1/1000000) 1 hlkb (by norm_num)
        (by unfold fromScaled SCALE; norm_num),
      hget "c" (999997/1000000) 999997 hlkc (by norm_num)
        (by unfold fromScaled SCALE; norm_num)]
  · intro hcontra
    rw [show (1/1000000 + 1/1000000 + 999997/1000000 : ℚ) - 1 =
        -(1/1000000) from by norm_num] at hcontra
    rw [abs_neg, abs_of_pos (by norm_num)] at hcontra
    norm_num at hcontra

/-! ## Claim C7 -/

/-- The weighted-mode validation rules as the claim states them. -/
def WeightedRules (rates : List (String × ℚ))
    (pools : List RarityInput) : Prop :=
  (∀ q ∈ rates, 0 ≤ q.2 ∧ q.2 ≤ 1) ∧
  (∀ p ∈ pools, (rates.lookup p.rarity).isSome) ∧
  |(rates.map Prod.snd).sum - 1| ≤ 1 / 10 ^ 10 ∧
  ∀ p ∈ pools, p.items ≠ [] ∧ 0 < (p.items.map GachaItem.weight).sum ∧
    (∀ i ∈ p.items, 0 ≤ i.weight) ∧ ∃ i ∈ p.items, 0 < i.weight

/-- The flat-mode validation rules as the claim states them: every item
probability non-negative, and the probabilities of *all items across all
pools* summing to 1 within `1e-6`. -/
def FlatRulesStated (pools : List RarityInput) : Prop :=
  (∀ p ∈ pools, ∀ i ∈ p.items, 0 ≤ i.weight) ∧
  |((pools.flatMap RarityInput.items).map GachaItem.weight).sum - 1| ≤
    1 / 10 ^ 6

/-- The claim's validation rules for a configuration, by mode. -/
def StatedRules : GachaEngineConfig → Prop
  | .weighted rates pools => WeightedRules rates pools
  | .flatRate pools => FlatRulesStated pools

/-- **C7 amended.** Restricted to configurations whose item names are unique
across pools (the data-model invariant; duplicate names make the flat-rate
map silently coalesce entries), construction succeeds if and only if the
claimed per-mode validation rules hold; otherwise it throws a
`ConfigurationError` and no engine is produced. -/
theorem c7_construction_iff_rules (cfg : GachaEngineConfig)
    (hnodup : (configNames cfg).Nodup) :
    (∃ e, mkEngine cfg = .ok e) ↔ StatedRules cfg := by
  cases cfg with
  | weighted rates pools =>
    unfold StatedRules WeightedRules
    constructor
    · rintro ⟨e, he⟩
      obtain ⟨hr, hv, -⟩ := mkEngine_weighted_eq_ok.mp he
      obtain ⟨hsome, hsum, hpools⟩ := validateConfig_ok_iff.mp hv
      refine ⟨hr, fun p hp => ?_, hsum, fun p hp => ?_⟩
      · have := hsome p hp
        rwa [lookup_scaledOf, Option.isSome_map'] at this
      · exact checkPool_ok_iff.mp (hpools p hp)
    · rintro ⟨hr, hsome, hsum, hpools⟩
      refine ⟨⟨.weighted, pools, scaledOf rates, []⟩,
        mkEngine_weighted_eq_ok.mpr ⟨hr, ?_, rfl⟩⟩
      refine validateConfig_ok_iff.mpr ⟨fun p hp => ?_, hsum, fun p hp => ?_⟩
      · rw [lookup_scaledOf, Option.isSome_map']
        exact hsome p hp
      · exact checkPool_ok_iff.mpr (hpools p hp)
  | flatRate pools =>
    unfold StatedRules FlatRulesStated
    have hnd : (allItemNames pools).Nodup := hnodup
    constructor
    · rintro ⟨e, he⟩
      obtain ⟨hnn, hsum, -⟩ := (mkEngine_flat_eq_ok hnd).mp he
      refine ⟨fun p hp i hi => hnn i (List.mem_flatMap.mpr ⟨p, hp, hi⟩), hsum⟩
    · rintro ⟨hnn, hsum⟩
      exact ⟨_, (mkEngine_flat_eq_ok hnd).mpr
        ⟨fun i hi => by
          obtain ⟨p, hp, hip⟩ := List.mem_flatMap.mp hi
          exact hnn p hp i hip, hsum, rfl⟩⟩

theorem c7_witness :
    (∃ e, mkEngine (.flatRate [⟨"p", [⟨"A", (1 : ℚ)/2, false⟩,
      ⟨"B", 1/2, false⟩]⟩]) = .ok e) ↔
    StatedRules (.flatRate [⟨"p", [⟨"A", (1 : ℚ)/2, false⟩,
      ⟨"B", 1/2, false⟩]⟩]) :=
  c7_construction_iff_rules _ (by simp [configNames, allItemNames])

/-- **C7 counterexample.** With the duplicate item name `A` in flat mode the
constructor succeeds — the map coalesces the two `A` entries, so the *map's*
values sum to 1 — even though the probabilities of all items across all
pools sum to `3/2`, violating the claim's stated flat-mode rule.  The claimed
'succeeds iff the rules hold' equivalence is therefore false as stated. -/
theorem c7_counterexample :
    mkEngine (.flatRate [⟨"p", [⟨"A", (1 : ℚ)/2, false⟩, ⟨"A", 1/2, false⟩,
      ⟨"B", 1/2, false⟩]⟩]) =
      .ok ⟨.flatRate, [], [], [("A", 1/2), ("B", 1/2)]⟩ ∧
    ¬ StatedRules (.flatRate [⟨"p", [⟨"A", (1 : ℚ)/2, false⟩,
      ⟨"A", 1/2, false⟩, ⟨"B", 1/2, false⟩]⟩]) := by
  constructor
  · have hb : buildFlatMap
        ([⟨"p", [⟨"A", (1 : ℚ)/2, false⟩, ⟨"A", 1/2, false⟩,
          ⟨"B", 1/2, false⟩]⟩].flatMap RarityInput.items) [] =
        .ok [("A", 1/2), ("B", 1/2)] := by
      simp only [List.flatMap_cons, List.flatMap_nil, List.append_nil]
      simp [buildFlatMap, flatInsert]
      norm_num
    simp only [mkEngine]
    rw [hb]
    simp only [Bind.bind, Except.bind]
    rw [if_neg (by norm_num)]
  · unfold StatedRules FlatRulesStated
    rintro ⟨-, habs⟩
    rw [show (([⟨"p", [⟨"A", (1 : ℚ)/2, false⟩, ⟨"A", 1/2, false⟩,
        ⟨"B", 1/2, false⟩]⟩].flatMap RarityInput.items).map
        GachaItem.weight).sum - 1 = 1/2 from by
      simp [List.flatMap_cons]
      norm_num] at habs
    rw [abs_of_pos (by norm_num)] at habs
    norm_num at habs

/-! ## Claim C1 -/

theorem walkRarity_mem {l : List (String × ℤ)} :
    ∀ {rand cum : ℤ} {k : String}, walkRarity l rand cum = some k →
      k ∈ l.map Prod.fst := by
  induction l with
  | nil =>
    intro rand cum k h
    cases h
  | cons q rest ih =>
    intro rand cum k h
    obtain ⟨a, s⟩ := q
    simp only [walkRarity] at h
    split_ifs at h with hlt
    · simp only [Option.some.injEq] at h
      subst h
      simp
    · exact List.mem_cons_of_mem _ (ih h)

theorem selectRarity_some {e : Engine} (hne : e.rarityRatesScaled ≠ [])
    (r : ℚ) :
    ∃ k, selectRarity e r = some k ∧
      k ∈ e.rarityRatesScaled.map Prod.fst := by
  unfold selectRarity
  cases hw : walkRarity e.rarityRatesScaled ⌊r * ((SCALE : ℤ) : ℚ)⌋ 0 with
  | some k => exact ⟨k, rfl, walkRarity_mem hw⟩
  | none =>
    cases hl : e.rarityRatesScaled with
    | nil => exact absurd hl hne
    | cons q rest => exact ⟨q.1, by simp, by simp⟩

theorem walkItems_mem {l : List (GachaItem × ℤ)} :
    ∀ {rand cum : ℤ} {i : GachaItem}, walkItems l rand cum = some i →
      i ∈ l.map Prod.fst := by
  induction l with
  | nil =>
    intro rand cum i h
    cases h
  | cons q rest ih =>
    intro rand cum i h
    obtain ⟨a, w⟩ := q
    simp only [walkItems] at h
    split_ifs at h with hlt
    · simp only [Option.some.injEq] at h
      subst h
      simp
    · exact List.mem_cons_of_mem _ (ih h)

theorem scaleItems_eq_ok {items : List GachaItem}
    (h : ∀ i ∈ items, i.weight ≤ (MAX_SAFE_SCALE : ℚ) / (SCALE : ℚ)) :
    scaleItems items =
      .ok (items.map (fun i => (i, round (i.weight * (SCALE : ℚ))))) := by
  induction items with
  | nil => simp [scaleItems]
  | cons i rest ih =>
    simp only [scaleItems]
    rw [toScaled_eq_ok (h i (by simp)), ih (fun j hj => h j (by simp [hj]))]
    simp [Bind.bind, Except.bind]

theorem selectItemFromPool_some {pool : RarityInput}
    (hpos : ∃ i ∈ pool.items, 0 < i.weight)
    (hcap : ∀ i ∈ pool.items, i.weight ≤ (MAX_SAFE_SCALE : ℚ) / (SCALE : ℚ))
    (r : ℚ) :
    ∃ i, selectItemFromPool pool r = .ok (some i) ∧ i ∈ pool.items := by
  obtain ⟨i0, hi0, hw0⟩ := hpos
  have hmem0 : i0 ∈ pool.items.filter (fun i => 0 < i.weight) :=
    List.mem_filter.mpr ⟨hi0, by simp [hw0]⟩
  have hcap' : ∀ i ∈ pool.items.filter (fun i => 0 < i.weight),
      i.weight ≤ (MAX_SAFE_SCALE : ℚ) / (SCALE : ℚ) :=
    fun i hi => hcap i (List.mem_of_mem_filter hi)
  unfold selectItemFromPool
  dsimp only
  rw [scaleItems_eq_ok hcap']
  simp only [Bind.bind, Except.bind]
  cases hwk : walkItems
      ((pool.items.filter (fun i => 0 < i.weight)).map
        (fun i => (i, round (i.weight * ((SCALE : ℤ) : ℚ)))))
      ⌊r * ((((pool.items.filter (fun i => 0 < i.weight)).map
        (fun i => (i, round (i.weight * ((SCALE : ℤ) : ℚ))))).map
          Prod.snd).sum : ℚ)⌋ 0 with
  | some j =>
    refine ⟨j, rfl, ?_⟩
    have hj := walkItems_mem hwk
    obtain ⟨x, hx, hxj⟩ := List.mem_map.mp hj
    obtain ⟨i', hi', rfl⟩ := List.mem_map.mp hx
    dsimp only at hxj
    subst hxj
    exact List.mem_of_mem_filter hi'
  | none =>
    cases hfil : pool.items.filter (fun i => 0 < i.weight) with
    | nil =>
      rw [hfil] at hmem0
      cases hmem0
    | cons a rest =>
      have ha : a ∈ pool.items.filter (fun i => 0 < i.weight) := by
        rw [hfil]
        exact List.mem_cons_self _ _
      exact ⟨a, rfl, List.mem_of_mem_filter ha⟩

theorem drawWeighted_some {e : Engine}
    (hne : e.rarityRatesScaled ≠ [])
    (hfind : ∀ k ∈ e.rarityRatesScaled.map Prod.fst,
      ∃ p, e.pools.find? (fun p => p.rarity == k) = some p)
    (hpool : ∀ p ∈ e.pools, (∃ i ∈ p.items, 0 < i.weight) ∧
      ∀ i ∈ p.items, i.weight ≤ (MAX_SAFE_SCALE : ℚ) / (SCALE : ℚ))
    (r1 r2 : ℚ) :
    ∃ n, drawWeighted e r1 r2 = some n ∧ n ∈ allItemNames e.pools := by
  obtain ⟨k, hsel, hk⟩ := selectRarity_some hne r1
  obtain ⟨p, hp⟩ := hfind k hk
  have hpmem : p ∈ e.pools := List.mem_of_find?_eq_some hp
  obtain ⟨i, hselitem, himem⟩ :=
    selectItemFromPool_some (hpool p hpmem).1 (hpool p hpmem).2 r2
  refine ⟨i.name, ?_, ?_⟩
  · unfold drawWeighted
    rw [hsel]
    dsimp only
    rw [hp]
    dsimp only
    rw [hselitem]
  · unfold allItemNames
    exact List.mem_flatMap.mpr ⟨p, hpmem, List.mem_map_of_mem _ himem⟩

theorem rollWeightedAux_spec {e : Engine}
    (hdraw : ∀ r1 r2, ∃ n, drawWeighted e r1 r2 = some n ∧
      n ∈ allItemNames e.pools)
    (rng : ℕ → ℚ) :
    ∀ count idx, ∃ l, rollWeightedAux e rng count idx = some l ∧
      l.length = count ∧ ∀ n ∈ l, n ∈ allItemNames e.pools := by
  intro count
  induction count with
  | zero =>
    intro idx
    exact ⟨[], rfl, rfl, by simp⟩
  | succ m ih =>
    intro idx
    obtain ⟨n, hd, hn⟩ := hdraw (rng (2 * idx)) (rng (2 * idx + 1))
    obtain ⟨l, hl, hlen, hmem⟩ := ih (idx + 1)
    refine ⟨n :: l, ?_, by simp [hlen], ?_⟩
    · simp only [rollWeightedAux, hd, hl, Option.bind_some]
      rfl
    · intro x hx
      rcases List.mem_cons.mp hx with rfl | hx'
      · exact hn
      · exact hmem x hx'

theorem walkFlat_mem {l : List (String × ℚ)} :
    ∀ {rand cum : ℚ} {n : String}, walkFlat l rand cum = some n →
      n ∈ l.map Prod.fst := by
  induction l with
  | nil =>
    intro rand cum n h
    cases h
  | cons q rest ih =>
    intro rand cum n h
    obtain ⟨a, w⟩ := q
    simp only [walkFlat] at h
    split_ifs at h with hlt
    · simp only [Option.some.injEq] at h
      subst h
      simp
    · exact List.mem_cons_of_mem _ (ih h)

theorem rollFlatAux_spec (e : Engine) (rng : ℕ → ℚ) :
    ∀ count idx, (rollFlatAux e rng count idx).length ≤ count ∧
      ∀ n ∈ rollFlatAux e rng count idx, n ∈ e.flatRateMap.map Prod.fst := by
  intro count
  induction count with
  | zero =>
    intro idx
    exact ⟨by simp [rollFlatAux], by simp [rollFlatAux]⟩
  | succ m ih =>
    intro idx
    obtain ⟨ihl, ihm⟩ := ih (idx + 1)
    constructor
    · simp only [rollFlatAux, List.length_append]
      cases hd : drawFlat e (rng idx) with
      | some n =>
        simp only [List.length_singleton]
        omega
      | none =>
        simp only [List.length_nil]
        omega
    · intro n hn
      simp only [rollFlatAux, List.mem_append] at hn
      rcases hn with hn | hn
      · cases hd : drawFlat e (rng idx) with
        | some n' =>
          rw [hd] at hn
          simp only [List.mem_singleton] at hn
          subst hn
          unfold drawFlat at hd
          exact walkFlat_mem hd
        | none =>
          rw [hd] at hn
          cases hn
      · exact ihm n hn

/-- **C1 amended.** In weighted mode, `roll(count)` returns exactly `count`
configured item names provided that, in addition to the constructor's
validation, every configured tier has a pool (the code crashes on
`this.pools.find(...)!` otherwise) and every item weight is small enough for
safe scaling (`selectItemFromPool` re-scales weights and can throw).  In flat
mode every returned name is configured but a draw whose cumulative walk falls
short of the drawn value pushes nothing — the flat branch has **no**
fallback — so the result can be *shorter* than `count`. -/
theorem c1_roll_amended {cfg : GachaEngineConfig} {e : Engine}
    (he : mkEngine cfg = .ok e) (rng : ℕ → ℚ) (count : ℕ) :
    (∀ rates pools, cfg = .weighted rates pools →
      (∀ q ∈ rates, ∃ p ∈ pools, p.rarity = q.1) →
      (∀ p ∈ pools, ∀ i ∈ p.items,
        i.weight ≤ (MAX_SAFE_SCALE : ℚ) / (SCALE : ℚ)) →
      ∃ l, roll e rng count = some l ∧ l.length = count ∧
        ∀ n ∈ l, n ∈ allItemNames pools) ∧
    (∀ pools, cfg = .flatRate pools →
      ∃ l, roll e rng count = some l ∧ l.length ≤ count ∧
        ∀ n ∈ l, n ∈ allItemNames pools) := by
  constructor
  · rintro rates pools rfl htier hcap
    obtain ⟨hr, hv, rfl⟩ := mkEngine_weighted_eq_ok.mp he
    obtain ⟨hsome, hsum, hpools⟩ := validateConfig_ok_iff.mp hv
    have hne : (scaledOf rates) ≠ [] := by
      intro hnil
      unfold scaledOf at hnil
      rw [List.map_eq_nil_iff] at hnil
      subst hnil
      norm_num at hsum
    have hdraw : ∀ r1 r2, ∃ n,
        drawWeighted ⟨.weighted, pools, scaledOf rates, []⟩ r1 r2 = some n ∧
        n ∈ allItemNames pools := by
      intro r1 r2
      refine drawWeighted_some hne ?_ ?_ r1 r2
      · intro k hk
        have hk' : k ∈ rates.map Prod.fst := by
          unfold scaledOf at hk
          rw [List.map_map] at hk
          simpa using hk
        obtain ⟨q, hq, hqk⟩ := List.mem_map.mp hk'
        obtain ⟨p, hp, hrar⟩ := htier q hq
        have hfs : (List.find? (fun p => p.rarity == k) pools).isSome := by
          rw [List.find?_isSome]
          exact ⟨p, hp, by simp [hrar, hqk]⟩
        exact Option.isSome_iff_exists.mp hfs
      · intro p hp
        have hcp := checkPool_ok_iff.mp (hpools p hp)
        exact ⟨hcp.2.2.2, hcap p hp⟩
    obtain ⟨l, hl, hlen, hmem⟩ := rollWeightedAux_spec hdraw rng count 0
    exact ⟨l, hl, hlen, hmem⟩
  · rintro pools rfl
    obtain ⟨m, hb, rfl⟩ := mkEngine_flat_ok_inv he
    obtain ⟨hlen, hmem⟩ :=
      rollFlatAux_spec ⟨.flatRate, [], [], m⟩ rng count 0
    refine ⟨rollFlatAux ⟨.flatRate, [], [], m⟩ rng count 0, rfl, hlen, ?_⟩
    intro n hn
    rcases buildFlatMap_keys _ hb n (hmem n hn) with h0 | h0
    · simp at h0
    · rwa [allItemNames_eq]

theorem c1_witness :
    ∃ l, roll ⟨.weighted, [⟨"r", [⟨"A", 1, false⟩]⟩], scaledOf [("r", 1)], []⟩
        (fun _ => 0) 5 = some l ∧ l.length = 5 ∧
      ∀ n ∈ l, n ∈ allItemNames [⟨"r", [⟨"A", 1, false⟩]⟩] := by
  refine (@c1_roll_amended (.weighted [("r", 1)]
      [⟨"r", [⟨"A", 1, false⟩]⟩]) _ ?he (fun _ => 0) 5).1
    [("r", 1)] [⟨"r", [⟨"A", 1, false⟩]⟩] rfl ?tier ?cap
  case he =>
    refine mkEngine_weighted_eq_ok.mpr ⟨?_, ?_, rfl⟩
    · intro q hq
      simp only [List.mem_singleton] at hq
      subst hq
      norm_num
    · refine validateConfig_ok_iff.mpr ⟨?_, by norm_num, ?_⟩
      · intro p hp
        simp only [List.mem_singleton] at hp
        subst hp
        simp [scaledOf, List.lookup]
      · intro p hp
        simp only [List.mem_singleton] at hp
        subst hp
        rw [checkPool_ok_iff]
        refine ⟨by simp, by norm_num, ?_, ?_⟩
        · intro i hi
          simp only [List.mem_singleton] at hi
          subst hi
          norm_num
        · exact ⟨⟨"A", 1, false⟩, by simp, by norm_num⟩
  case tier =>
    intro q hq
    simp only [List.mem_singleton] at hq
    subst hq
    exact ⟨⟨"r", [⟨"A", 1, false⟩]⟩, by simp, rfl⟩
  case cap =>
    intro p hp i hi
    simp only [List.mem_singleton] at hp
    subst hp
    simp only [List.mem_singleton] at hi
    subst hi
    rw [MAX_SAFE_SCALE_eq]
    unfold SCALE
    norm_num

/-- **C1 counterexample.** A valid flat configuration whose probabilities sum
to `1 - 2e-7` (within the `1e-6` tolerance): with the random draw
`0.9999999` the cumulative walk falls short, no name is pushed, and
`roll(1)` returns the empty list — shorter than `count = 1`. -/
theorem c1_counterexample :
    (mkEngine (.flatRate [⟨"p", [⟨"A", (1 : ℚ)/2, false⟩,
        ⟨"B", 2499999/5000000, false⟩]⟩])).map
      (fun e => roll e (fun _ => 9999999/10000000) 1) = .ok (some []) ∧
    ¬ ∃ l, (mkEngine (.flatRate [⟨"p", [⟨"A", (1 : ℚ)/2, false⟩,
        ⟨"B", 2499999/5000000, false⟩]⟩])).map
      (fun e => roll e (fun _ => 9999999/10000000) 1) = .ok (some l) ∧
      l.length = 1 := by
  have hmk : mkEngine (.flatRate [⟨"p", [⟨"A", (1 : ℚ)/2, false⟩,
      ⟨"B", 2499999/5000000, false⟩]⟩]) =
      .ok ⟨.flatRate, [], [], [("A", 1/2), ("B", 2499999/5000000)]⟩ := by
    have hbf : buildFlatMap ([⟨"p", [⟨"A", (1 : ℚ)/2, false⟩,
        ⟨"B", 2499999/5000000, false⟩]⟩].flatMap RarityInput.items) [] =
        .ok [("A", 1/2), ("B", 2499999/5000000)] := by
      simp only [List.flatMap_cons, List.flatMap_nil, List.append_nil]
      simp [buildFlatMap, flatInsert]
      norm_num
    simp only [mkEngine]
    rw [hbf]
    simp only [Bind.bind, Except.bind]
    rw [if_neg]
    rw [not_lt, show (([("A", (1 : ℚ)/2), ("B", 2499999/5000000)] :
        List (String × ℚ)).map Prod.snd).sum - 1 = -(1/5000000) from by
      simp
      norm_num]
    rw [abs_neg, abs_of_pos (by norm_num)]
    norm_num
  have hroll : roll ⟨.flatRate, [], [], [("A", (1 : ℚ)/2),
      ("B", 2499999/5000000)]⟩ (fun _ => 9999999/10000000) 1 = some [] := by
    unfold roll
    dsimp only
    unfold rollFlatAux drawFlat
    unfold rollFlatAux
    simp only [walkFlat]
    rw [if_neg (by norm_num), if_neg (by norm_num)]
    rfl
  constructor
  · rw [hmk]
    simp only [Except.map]
    rw [hroll]
  · rintro ⟨l, hl, hlen⟩
    rw [hmk] at hl
    simp only [Except.map] at hl
    rw [hroll] at hl
    simp only [Except.ok.injEq, Option.some.injEq] at hl
    subst hl
    simp at hlen

/-! ## Claim C5 -/

/-- **C5.** Round-trip law: for an item whose effective drop rate `p`
satisfies `0 < p < 1` and a target `0 < t < 1`, the number of rolls
`n = getRollsForTargetProbability(item, t)` is a positive integer with
`getCumulativeProbabilityForItem(item, n) ≥ t`, and when `n > 1` also
`getCumulativeProbabilityForItem(item, n - 1) < t`. -/
theorem c5_round_trip {e : Engine} {name : String} {p t : ℚ}
    (hp : dropRate e name = .ok (.num p)) (hp0 : 0 < p) (hp1 : p < 1)
    (ht0 : 0 < t) (ht1 : t < 1) :
    ∃ n : ℕ, 1 ≤ n ∧
      getRollsForTargetProbability e name t = .ok (.num ((n : ℤ) : ℚ)) ∧
      (∃ v, getCumulativeProbabilityForItem e name n = .ok (.num v) ∧
        t ≤ v) ∧
      (1 < n → ∃ w, getCumulativeProbabilityForItem e name (n - 1) =
        .ok (.num w) ∧ w < t) := by
  have hTpos : (0 : ℝ) < 1 - (t : ℝ) := by
    have : (t : ℝ) < 1 := by exact_mod_cast ht1
    linarith
  have hTlt : (1 : ℝ) - (t : ℝ) < 1 := by
    have : (0 : ℝ) < (t : ℝ) := by exact_mod_cast ht0
    linarith
  have hPpos : (0 : ℝ) < 1 - (p : ℝ) := by
    have : (p : ℝ) < 1 := by exact_mod_cast hp1
    linarith
  have hPlt : (1 : ℝ) - (p : ℝ) < 1 := by
    have : (0 : ℝ) < (p : ℝ) := by exact_mod_cast hp0
    linarith
  have hlogT : Real.log (1 - (t : ℝ)) < 0 := Real.log_neg hTpos hTlt
  have hlogP : Real.log (1 - (p : ℝ)) < 0 := Real.log_neg hPpos hPlt
  have hLpos : 0 < Real.log (1 - (t : ℝ)) / Real.log (1 - (p : ℝ)) :=
    div_pos_of_neg_of_neg hlogT hlogP
  set L : ℝ := Real.log (1 - (t : ℝ)) / Real.log (1 - (p : ℝ)) with hL
  have hN1 : 1 ≤ ⌈L⌉ := Int.ceil_pos.mpr hLpos
  refine ⟨(⌈L⌉).toNat, ?_, ?_, ?_, ?_⟩
  · omega
  · have hcast : ((((⌈L⌉).toNat : ℕ) : ℤ) : ℚ) = ((⌈L⌉ : ℤ) : ℚ) := by
      congr 1
      omega
    rw [hcast]
    unfold getRollsForTargetProbability
    rw [if_neg (by linarith), if_neg (by linarith)]
    simp only [hp, Bind.bind, Except.bind]
    rw [if_neg (by linarith)]
  · refine ⟨1 - (1 - p) ^ (⌈L⌉).toNat, ?_, ?_⟩
    · unfold getCumulativeProbabilityForItem
      simp only [hp, Bind.bind, Except.bind]
      rw [if_neg (by linarith), if_neg (by linarith)]
    · have key : ((1 - p : ℚ) : ℝ) ^ (⌈L⌉).toNat ≤ 1 - (t : ℝ) := by
        have hle : L ≤ (((⌈L⌉).toNat : ℕ) : ℝ) := by
          calc L ≤ (⌈L⌉ : ℝ) := Int.le_ceil L
            _ = (((⌈L⌉).toNat : ℕ) : ℝ) := by
              norm_cast
              omega
        have hmul : (((⌈L⌉).toNat : ℕ) : ℝ) * Real.log (1 - (p : ℝ)) ≤
            L * Real.log (1 - (p : ℝ)) :=
          mul_le_mul_of_nonpos_right hle hlogP.le
        have hLmul : L * Real.log (1 - (p : ℝ)) = Real.log (1 - (t : ℝ)) := by
          rw [hL]
          exact div_mul_cancel₀ _ hlogP.ne
        have hlog : Real.log (((1 - p : ℚ) : ℝ) ^ (⌈L⌉).toNat) ≤
            Real.log (1 - (t : ℝ)) := by
          rw [Real.log_pow]
          push_cast
          rw [← hLmul]
          convert hmul using 2
        have hpowpos : (0 : ℝ) < ((1 - p : ℚ) : ℝ) ^ (⌈L⌉).toNat := by
          apply pow_pos
          push_cast
          linarith
        rw [Real.log_le_log_iff hpowpos hTpos] at hlog
        exact hlog
      have : (t : ℝ) ≤ 1 - ((1 - p : ℚ) : ℝ) ^ (⌈L⌉).toNat := by linarith
      have hcast : ((1 - (1 - p) ^ (⌈L⌉).toNat : ℚ) : ℝ) =
          1 - ((1 - p : ℚ) : ℝ) ^ (⌈L⌉).toNat := by push_cast; ring
      exact_mod_cast hcast ▸ this
  · intro hn1
    refine ⟨1 - (1 - p) ^ ((⌈L⌉).toNat - 1), ?_, ?_⟩
    · unfold getCumulativeProbabilityForItem
      simp only [hp, Bind.bind, Except.bind]
      rw [if_neg (by linarith), if_neg (by linarith)]
    · have key : 1 - (t : ℝ) < ((1 - p : ℚ) : ℝ) ^ ((⌈L⌉).toNat - 1) := by
        have hlt : ((((⌈L⌉).toNat - 1 : ℕ) : ℤ) : ℝ) < L := by
          have h1 : (((⌈L⌉).toNat - 1 : ℕ) : ℤ) < ⌈L⌉ := by omega
          exact_mod_cast Int.lt_ceil.mp h1
        have hmul : L * Real.log (1 - (p : ℝ)) <
            ((((⌈L⌉).toNat - 1 : ℕ) : ℤ) : ℝ) * Real.log (1 - (p : ℝ)) :=
          mul_lt_mul_of_neg_right hlt hlogP
        have hLmul : L * Real.log (1 - (p : ℝ)) = Real.log (1 - (t : ℝ)) := by
          rw [hL]
          exact div_mul_cancel₀ _ hlogP.ne
        have hlog : Real.log (1 - (t : ℝ)) <
            Real.log (((1 - p : ℚ) : ℝ) ^ ((⌈L⌉).toNat - 1)) := by
          rw [Real.log_pow, ← hLmul]
          convert hmul using 2
          push_cast
          ring
        have hpowpos : (0 : ℝ) < ((1 - p : ℚ) : ℝ) ^ ((⌈L⌉).toNat - 1) := by
          apply pow_pos
          push_cast
          linarith
        rw [Real.log_lt_log_iff hTpos hpowpos] at hlog
        exact hlog
      have : 1 - ((1 - p : ℚ) : ℝ) ^ ((⌈L⌉).toNat - 1) < (t : ℝ) := by
        linarith
      have hcast : ((1 - (1 - p) ^ ((⌈L⌉).toNat - 1) : ℚ) : ℝ) =
          1 - ((1 - p : ℚ) : ℝ) ^ ((⌈L⌉).toNat - 1) := by push_cast; ring
      exact_mod_cast hcast ▸ this

theorem c5_witness :
    ∃ n : ℕ, 1 ≤ n ∧
      getRollsForTargetProbability
        ⟨.flatRate, [], [], [("A", (1 : ℚ)/2), ("B", 1/2)]⟩ "A" (1/2) =
        .ok (.num ((n : ℤ) : ℚ)) ∧
      (∃ v, getCumulativeProbabilityForItem
        ⟨.flatRate, [], [], [("A", (1 : ℚ)/2), ("B", 1/2)]⟩ "A" n =
        .ok (.num v) ∧ (1 : ℚ)/2 ≤ v) ∧
      (1 < n → ∃ w, getCumulativeProbabilityForItem
        ⟨.flatRate, [], [], [("A", (1 : ℚ)/2), ("B", 1/2)]⟩ "A" (n - 1) =
        .ok (.num w) ∧ w < (1 : ℚ)/2) := by
  refine c5_round_trip (p := 1/2) (t := 1/2) ?_ (by norm_num) (by norm_num)
    (by norm_num) (by norm_num)
  rw [dropRate_flat rfl]
  simp [List.lookup]

end Gacha
